import Mathlib

/-!
Shallow embedding of `src/lasvegas/game.py` (class `LasVegas`), the rules
engine of the Las Vegas dice game, together with proofs about it.

Modelling conventions:
* Python lists become `List`; in-place mutation becomes explicit state passing.
* Python `assert` failures (raised exceptions) become `Option`/`none`
  results; a function that can raise returns `Option`.
* `random.shuffle` is modelled by passing the shuffled deck (an arbitrary
  permutation of the pre-shuffle deck) as an explicit argument.
* `random.randint` based rolls are modelled by quantifying over the face
  count vectors a roll can produce (6 naturals summing to the dice rolled).
* Python integers are `Nat` where the code keeps them non-negative by
  construction (cash, bill values, per-casino dice counts) and `Int` where
  the code could in principle drive them negative (a player's remaining
  dice, which `play_move` decrements by an externally supplied count).
-/

namespace LasVegas

/-- Constant `MAX_PLAYERS = 5` from the source. -/
def MAX_PLAYERS : Nat := 5

/-- Constant `NUM_DICE = 8` from the source. -/
def NUM_DICE : Nat := 8

/-- Constant `NUM_ROUNDS = 4` from the source. -/
def NUM_ROUNDS : Nat := 4

/-- Constant `CASH_NORM = 100` from the source. -/
def CASH_NORM : Nat := 100

/-- Constant `BILL_COUNTS` from the source: bill value ↦ number of such bills,
in Python dict insertion order. -/
def BILL_COUNTS : List (Nat × Nat) :=
  [(10, 6), (20, 8), (30, 8), (40, 6), (50, 6), (60, 5), (70, 5), (80, 5), (90, 5)]

/-- The deck built in `__init__` before shuffling:
`[bill for bill, count in self.BILL_COUNTS.items() for _ in range(count)]`. -/
def initialDeck : List Nat :=
  (BILL_COUNTS.map (fun p => List.replicate p.2 p.1)).flatten

/-- Value of `max(self.BILL_COUNTS.keys())` as used by `get_game_state`. -/
def maxBillValue : Nat := (BILL_COUNTS.map (fun p => p.1)).foldr max 0

/-- One entry of `self.players`: the dict `{"cash": ..., "dice": ...}`. -/
structure Player where
  cash : Nat
  dice : Int
deriving Repr, DecidableEq

instance : Inhabited Player := ⟨⟨0, 0⟩⟩

/-- One entry of `self.casinos`: the dict `{"bills": ..., "dice": ...}`;
`dice` has one slot per player slot (length `MAX_PLAYERS`). -/
structure Casino where
  bills : List Nat
  dice : List Nat
deriving Repr, DecidableEq

instance : Inhabited Casino := ⟨⟨[], []⟩⟩

/-- The mutable attributes of a `LasVegas` game object. -/
structure GameState where
  num_players : Nat
  players : List Player
  deck : List Nat
  casinos : List Casino
  first_player : Nat
  round : Nat
deriving Repr, DecidableEq

instance : Inhabited GameState := ⟨⟨0, [], [], [], 0, 0⟩⟩

/-- Replace the element at index `i` by `f` of it (Python `l[i] = f(l[i])`);
out-of-range indices leave the list unchanged. -/
def updAt {α : Type} : Nat → (α → α) → List α → List α
  | _, _, [] => []
  | 0, f, a :: l => f a :: l
  | n + 1, f, a :: l => a :: updAt n f l

/-- Python `enumerate`, starting index `i`. -/
def enumFrom {α : Type} (i : Nat) : List α → List (Nat × α)
  | [] => []
  | a :: l => (i, a) :: enumFrom (i + 1) l

/-- Insert into a descending-sorted list, keeping it descending. -/
def insertDesc (a : Nat) : List Nat → List Nat
  | [] => [a]
  | b :: l => if b ≤ a then a :: b :: l else b :: insertDesc a l

/-- Python `list.sort(reverse=True)` on the bill lists: sort descending. -/
def sortDescNat : List Nat → List Nat
  | [] => []
  | a :: l => insertDesc a (sortDescNat l)

/-- Stable insertion for the ascending-by-count sort of
`sorted(enumerate(casino["dice"]), key=lambda x: x[1])`. -/
def insertByCnt (a : Nat × Nat) : List (Nat × Nat) → List (Nat × Nat)
  | [] => [a]
  | b :: l => if a.2 ≤ b.2 then a :: b :: l else b :: insertByCnt a l

/-- Python `sorted(..., key=lambda x: x[1])`: stable sort by second
component, ascending. -/
def sortByCnt : List (Nat × Nat) → List (Nat × Nat)
  | [] => []
  | a :: l => insertByCnt a (sortByCnt l)

/-- The draw loop of `deal_bills`:
`while sum(bills[i]) < 50: bills[i].append(self.deck.pop())`.
`deck.pop()` takes the LAST element.  The extra `fuel` argument only bounds
the number of iterations; since every iteration removes one deck element,
`fuel = deck.length + 1` (as supplied by `drawLoop`) never runs out before
the loop either finishes or hits Python's `IndexError` (modelled `none`). -/
def drawLoopF : Nat → List Nat → List Nat → Option (List Nat × List Nat)
  | 0, _, _ => none
  | fuel + 1, acc, deck =>
    if 50 ≤ acc.sum then some (acc, deck)
    else
      match deck.getLast? with
      | none => none
      | some b => drawLoopF fuel (acc ++ [b]) deck.dropLast

/-- Draw bills for one casino from the deck until their sum reaches 50,
returning the drawn bills and the remaining deck. -/
def drawLoop (acc deck : List Nat) : Option (List Nat × List Nat) :=
  drawLoopF (deck.length + 1) acc deck

/-- The per-casino body of `deal_bills`: draw until the sum reaches 50,
pad with zeros to 5 slots (`while len(bills[i]) < 5: bills[i].append(0)`),
then `bills[i].sort(reverse=True)`. -/
def dealOne (deck : List Nat) : Option (List Nat × List Nat) :=
  match drawLoop [] deck with
  | none => none
  | some (bs, d) => some (sortDescNat (bs ++ List.replicate (5 - bs.length) 0), d)

/-- Deal `n` casinos in sequence from the deck. -/
def dealN : Nat → List Nat → Option (List Casino × List Nat)
  | 0, deck => some ([], deck)
  | n + 1, deck =>
    match dealOne deck with
    | none => none
    | some (bs, deck') =>
      match dealN n deck' with
      | none => none
      | some (cs, deck'') =>
        some (⟨bs, List.replicate MAX_PLAYERS 0⟩ :: cs, deck'')

/-- Method `deal_bills`: deal 6 casinos, each with a `[0]*MAX_PLAYERS` dice record.
Returns the casinos together with the remaining deck. -/
def deal_bills (deck : List Nat) : Option (List Casino × List Nat) :=
  dealN 6 deck

/-- The players list built in `__init__`. -/
def mkPlayers (num_players : Nat) : List Player :=
  (List.range MAX_PLAYERS).map fun i =>
    if i < num_players then ⟨0, (NUM_DICE : Int)⟩ else ⟨0, 0⟩

/-- Constructor `__init__(num_players)`, with the shuffled deck passed explicitly;
`none` models a failed `assert 2 <= num_players <= self.MAX_PLAYERS`
or an `IndexError` while dealing. -/
def initGame (num_players : Nat) (shuffledDeck : List Nat) : Option GameState :=
  if 2 ≤ num_players ∧ num_players ≤ MAX_PLAYERS then
    match deal_bills shuffledDeck with
    | none => none
    | some (cs, d) => some ⟨num_players, mkPlayers num_players, d, cs, 0, 1⟩
  else none

/-- Method `play_move(player, action, roll_counts)`; `none` models a failed
`assert` (Python raises before any mutation happens). -/
def play_move (g : GameState) (player action : Nat) (roll_counts : List Nat) :
    Option GameState :=
  if player < g.num_players then
    if action < 6 then
      if 0 < roll_counts.getD action 0 then
        some { g with
          players := updAt player
            (fun p => { p with dice := p.dice - (roll_counts.getD action 0 : Int) })
            g.players,
          casinos := updAt action
            (fun c => { c with dice := updAt player (· + roll_counts.getD action 0) c.dice })
            g.casinos }
      else none
    else none
  else none

/-- Method `is_end_round`: every active player has zero remaining dice. -/
def is_end_round (g : GameState) : Bool :=
  (List.range g.num_players).all fun i => (g.players.getD i default).dice == 0

/-- Method `is_end_game`: final round and the round is over. -/
def is_end_game (g : GameState) : Bool :=
  (g.round == NUM_ROUNDS) && is_end_round g

/-- The `while len(ranked) > 0` loop of `advance_round` for one casino:
`d` is the casino's dice record (for `counts = Counter(casino["dice"])`),
the first list argument is the ranked entries in pop order (highest count
first), then the casino's remaining bills, then the players.  A bill is
paid only when `counts[count] == 1 and casino["bills"]`, and it is
`bills.pop(0)`, the head of the descending-sorted list. -/
def payLoop (d : List Nat) : List (Nat × Nat) → List Nat → List Player →
    List Player × List Nat
  | [], bills, ps => (ps, bills)
  | pc :: rest, bills, ps =>
    match bills with
    | [] => payLoop d rest [] ps
    | b :: bs =>
      if d.count pc.2 = 1 then
        payLoop d rest bs (updAt pc.1 (fun p => { p with cash := p.cash + b }) ps)
      else
        payLoop d rest (b :: bs) ps

/-- Resolve one casino: `ranked = sorted(enumerate(casino["dice"]), key=...)`
processed by `ranked.pop()`, i.e. in reverse (descending-count) order.
Returns the updated players and the casino's leftover bills. -/
def resolveCasino (c : Casino) (ps : List Player) : List Player × List Nat :=
  payLoop c.dice (sortByCnt (enumFrom 0 c.dice)).reverse c.bills ps

/-- The `for casino in self.casinos` loop of `advance_round`: resolve each
casino in order, keeping its leftover bills in the casino and appending the
non-zero leftovers to the deck (`for bill in casino["bills"]: if bill: ...`). -/
def resolveList : List Casino → List Player → List Nat →
    List Casino × List Player × List Nat
  | [], ps, deck => ([], ps, deck)
  | c :: cs, ps, deck =>
    let r := resolveCasino c ps
    let rest := resolveList cs r.1 (deck ++ r.2.filter (fun b => b ≠ 0))
    ({ c with bills := r.2 } :: rest.1, rest.2.1, rest.2.2)

/-- The payout-and-recycle phase of `advance_round` (everything before the
`if self.round < self.NUM_ROUNDS` block). -/
def resolvePhase (g : GameState) : GameState :=
  let r := resolveList g.casinos g.players g.deck
  { g with casinos := r.1, players := r.2.1, deck := r.2.2 }

/-- Loop `for i in range(self.num_players): self.players[i]["dice"] = self.NUM_DICE`. -/
def resetActive (n : Nat) (ps : List Player) : List Player :=
  (enumFrom 0 ps).map fun ip =>
    if ip.1 < n then { ip.2 with dice := (NUM_DICE : Int) } else ip.2

/-- Method `advance_round`, with the shuffled deck of the next round's deal passed
explicitly (a permutation of the post-recycle deck); `none` models a failed
`assert self.is_end_round()` or an `IndexError` while re-dealing. -/
def advance_round (g : GameState) (shuffledDeck : List Nat) : Option GameState :=
  if is_end_round g then
    let g' := resolvePhase g
    if g'.round < NUM_ROUNDS then
      match deal_bills shuffledDeck with
      | none => none
      | some (cs, d) =>
        some { g' with
          deck := d,
          casinos := cs,
          players := resetActive g'.num_players g'.players,
          first_player := (g'.first_player + 1) % g'.num_players,
          round := g'.round + 1 }
    else some g'
  else none

/-- Rotation `l[p:] + l[:p]` used throughout `get_game_state`. -/
def shiftTo {α : Type} (l : List α) (p : Nat) : List α :=
  l.drop p ++ l.take p

/-- The turn-order offset computed by `get_game_state`
(`player - first_player` or `num_players - first_player + player`),
as a Python integer. -/
def orderOf (g : GameState) (player : Nat) : Int :=
  if g.first_player ≤ player then (player : Int) - (g.first_player : Int)
  else (g.num_players : Int) - (g.first_player : Int) + (player : Int)

/-- The first three entries of the `get_game_state` vector. -/
def headerVec (g : GameState) (player : Nat) : List ℚ :=
  [(g.num_players : ℚ) / (MAX_PLAYERS : ℚ),
   (g.round : ℚ) / (NUM_ROUNDS : ℚ),
   (orderOf g player : ℚ) / (g.num_players : ℚ)]

/-- The cash block of `get_game_state`: all players' cash rotated so the
observer comes first, each divided by `CASH_NORM`. -/
def cashVec (g : GameState) (player : Nat) : List ℚ :=
  (shiftTo (g.players.map fun p => p.cash) player).map
    fun c : Nat => (c : ℚ) / (CASH_NORM : ℚ)

/-- The per-casino block of `get_game_state`: for each casino, the dice
record rotated by the observer index (divided by `NUM_DICE`) followed by the
bill list rotated by the observer index (divided by `max(BILL_COUNTS)`).
The source rotates the bills exactly as it rotates the dice
(`bills_shifted = bills[player:] + bills[:player]`). -/
def casinoVec (g : GameState) (player : Nat) : List ℚ :=
  (g.casinos.map fun c =>
    ((shiftTo c.dice player).map fun d : Nat => (d : ℚ) / (NUM_DICE : ℚ))
    ++ ((shiftTo c.bills player).map
      fun b : Nat => (b : ℚ) / (maxBillValue : ℚ))).flatten

/-- The trailing roll-count block of `get_game_state`. -/
def rollVec (roll_counts : List Nat) : List ℚ :=
  roll_counts.map fun r : Nat => (r : ℚ) / (NUM_DICE : ℚ)

/-- Method `get_game_state(player, roll_counts)`: the full state-encoding vector. -/
def get_game_state (g : GameState) (player : Nat) (roll_counts : List Nat) : List ℚ :=
  headerVec g player ++ cashVec g player ++ casinoVec g player ++ rollVec roll_counts

/-- Number of non-empty (non-sentinel) bills in a list. -/
def nzCount (l : List Nat) : Nat := (l.filter (fun b => b ≠ 0)).length

/-- Number of non-empty bills across a list of casinos. -/
def casinosNz (cs : List Casino) : Nat := (cs.map fun c => nzCount c.bills).sum

/-- Ghost quantity: the number of (real, non-sentinel) bills `advance_round`
pays to players when called on `g`.  Payout pops bills off the front of each
casino's list, so it is the drop in the non-empty-bill count. -/
def paidCount (g : GameState) : Nat :=
  casinosNz g.casinos - casinosNz (resolvePhase g).casinos

/-- Total dice the players have placed in the casinos for player slot `i`. -/
def placedSum (g : GameState) (i : Nat) : Nat :=
  (g.casinos.map fun c => c.dice.getD i 0).sum

/-- The states a `LasVegas` game object can reach through its public
operations, each used within its stated preconditions.  The `Nat` component
counts the bills historically paid out to players; the `Bool` component
records whether the final round's `advance_round` has already run (after
which the spec declares the game object discarded).  Shuffles are arbitrary
permutations, and the roll counts fed to `play_move` are the outcome of a
legal roll of the moving player's remaining dice (6 face counts summing to
that player's `dice`, as `roll_dice` produces). -/
inductive Reach : GameState → Nat → Bool → Prop
  | init (n : Nat) (sd : List Nat) (g : GameState)
      (hperm : sd.Perm initialDeck)
      (hinit : initGame n sd = some g) : Reach g 0 false
  | move (g g' : GameState) (k : Nat) (p a : Nat) (rc : List Nat)
      (hg : Reach g k false)
      (hlen : rc.length = 6)
      (hsum : (rc.sum : Int) = (g.players.getD p default).dice)
      (hmv : play_move g p a rc = some g') : Reach g' k false
  | adv (g g' : GameState) (k : Nat) (sd : List Nat)
      (hg : Reach g k false)
      (hperm : sd.Perm (resolvePhase g).deck)
      (hadv : advance_round g sd = some g') :
      Reach g' (k + paidCount g) (g.round == NUM_ROUNDS)

end LasVegas


/-! ### Basic lemmas about the list helpers -/

namespace LasVegas

theorem updAt_length {α : Type} (i : Nat) (f : α → α) (l : List α) :
    (updAt i f l).length = l.length := by
  induction l generalizing i with
  | nil => simp [updAt]
  | cons a l ih =>
    cases i with
    | zero => simp [updAt]
    | succ n => simpa [updAt] using ih n

theorem getElem?_updAt_self {α : Type} (i : Nat) (f : α → α) (l : List α) :
    (updAt i f l)[i]? = (l[i]?).map f := by
  induction l generalizing i with
  | nil => simp [updAt]
  | cons a l ih =>
    cases i with
    | zero => simp [updAt]
    | succ n => simpa [updAt] using ih n

theorem getElem?_updAt_ne {α : Type} (i j : Nat) (f : α → α) (l : List α)
    (h : i ≠ j) : (updAt j f l)[i]? = l[i]? := by
  induction l generalizing i j with
  | nil => simp [updAt]
  | cons a l ih =>
    cases j with
    | zero =>
      cases i with
      | zero => exact absurd rfl h
      | succ m => simp [updAt]
    | succ n =>
      cases i with
      | zero => simp [updAt]
      | succ m =>
        simpa [updAt] using ih m n (by omega)

theorem map_updAt {α β : Type} (i : Nat) (f : α → α) (g : α → β) (l : List α)
    (h : ∀ a, g (f a) = g a) : (updAt i f l).map g = l.map g := by
  induction l generalizing i with
  | nil => simp [updAt]
  | cons a l ih =>
    cases i with
    | zero => simp [updAt, h]
    | succ n => simpa [updAt] using ih n

theorem enumFrom_length {α : Type} (k : Nat) (l : List α) :
    (enumFrom k l).length = l.length := by
  induction l generalizing k with
  | nil => rfl
  | cons a l ih => simpa [enumFrom] using ih (k + 1)

theorem mem_enumFrom {α : Type} {k : Nat} {l : List α} {j : Nat} {a : α}
    (h : (j, a) ∈ enumFrom k l) : k ≤ j ∧ l[j - k]? = some a := by
  induction l generalizing k with
  | nil => simp [enumFrom] at h
  | cons b l ih =>
    rcases (by simpa [enumFrom] using h :
        (j = k ∧ a = b) ∨ (j, a) ∈ enumFrom (k + 1) l) with ⟨rfl, rfl⟩ | h'
    · simp
    · obtain ⟨hk, hget⟩ := ih h'
      constructor
      · omega
      · have hj : j - k = (j - (k + 1)) + 1 := by omega
        rw [hj]
        simpa using hget

theorem enumFrom_mem_of_getElem? {α : Type} {l : List α} {j : Nat} {a : α}
    (h : l[j]? = some a) (k : Nat) : (j + k, a) ∈ enumFrom k l := by
  induction l generalizing j k with
  | nil => simp at h
  | cons b l ih =>
    cases j with
    | zero =>
      simp at h
      simp [enumFrom, h]
    | succ m =>
      simp at h
      have h2 := ih h (k + 1)
      simp only [enumFrom, List.mem_cons]
      right
      have h3 : m + 1 + k = m + (k + 1) := by omega
      rw [h3]
      exact h2

theorem mem_enumFrom_zero {α : Type} {l : List α} {j : Nat} {a : α} :
    (j, a) ∈ enumFrom 0 l ↔ l[j]? = some a := by
  constructor
  · intro h
    simpa using (mem_enumFrom h).2
  · intro h
    simpa using enumFrom_mem_of_getElem? h 0

theorem enumFrom_map_fst {α : Type} (k : Nat) (l : List α) :
    (enumFrom k l).map Prod.fst = List.range' k l.length := by
  induction l generalizing k with
  | nil => rfl
  | cons a l ih => simp [enumFrom, List.range'_succ, ih]

theorem enumFrom_nodup {α : Type} (k : Nat) (l : List α) :
    (enumFrom k l).Nodup := by
  have h := List.nodup_range' (s := k) (n := l.length)
  rw [← enumFrom_map_fst k l] at h
  exact h.of_map Prod.fst

theorem insertByCnt_perm (a : Nat × Nat) (l : List (Nat × Nat)) :
    (insertByCnt a l).Perm (a :: l) := by
  induction l with
  | nil => simp [insertByCnt]
  | cons b l ih =>
    by_cases h : a.2 ≤ b.2
    · simp [insertByCnt, h]
    · simp only [insertByCnt, if_neg h]
      exact List.Perm.trans (ih.cons b) (List.Perm.swap a b l)

theorem sortByCnt_perm (l : List (Nat × Nat)) : (sortByCnt l).Perm l := by
  induction l with
  | nil => simp [sortByCnt]
  | cons a l ih =>
    exact ((insertByCnt_perm a (sortByCnt l)).trans (ih.cons a))

theorem insertDesc_perm (a : Nat) (l : List Nat) :
    (insertDesc a l).Perm (a :: l) := by
  induction l with
  | nil => simp [insertDesc]
  | cons b l ih =>
    by_cases h : b ≤ a
    · simp [insertDesc, h]
    · simp only [insertDesc, if_neg h]
      exact List.Perm.trans (ih.cons b) (List.Perm.swap a b l)

theorem sortDescNat_perm (l : List Nat) : (sortDescNat l).Perm l := by
  induction l with
  | nil => simp [sortDescNat]
  | cons a l ih =>
    exact ((insertDesc_perm a (sortDescNat l)).trans (ih.cons a))

end LasVegas

/-! ### Lemmas about the payout loop of `advance_round` -/

namespace LasVegas

/-- If no entry has a unique count, the loop pays nobody and keeps the
bills (modulo the empty-bills short circuit, which preserves emptiness). -/
theorem payLoop_skip (d : List Nat) (L : List (Nat × Nat)) (bills : List Nat)
    (ps : List Player) (h : ∀ pc ∈ L, d.count pc.2 ≠ 1) :
    payLoop d L bills ps = (ps, bills) := by
  induction L generalizing bills with
  | nil => simp [payLoop]
  | cons pc rest ih =>
    have hpc : d.count pc.2 ≠ 1 := h pc (by simp)
    have hrest : ∀ q ∈ rest, d.count q.2 ≠ 1 := fun q hq => h q (by simp [hq])
    cases bills with
    | nil => simpa [payLoop] using ih [] hrest
    | cons b bs => simpa [payLoop, hpc] using ih (b :: bs) hrest

/-- If exactly one processed entry `(i, v)` has a unique count, it receives
the head bill (the most valuable remaining one) and nothing else changes. -/
theorem payLoop_pay_unique (d : List Nat) (s t : List (Nat × Nat)) (i v b : Nat)
    (bs : List Nat) (ps : List Player)
    (hv : d.count v = 1)
    (hs : ∀ pc ∈ s, d.count pc.2 ≠ 1) (ht : ∀ pc ∈ t, d.count pc.2 ≠ 1) :
    payLoop d (s ++ (i, v) :: t) (b :: bs) ps =
      (updAt i (fun p => { p with cash := p.cash + b }) ps, bs) := by
  induction s generalizing ps with
  | nil =>
    simp only [List.nil_append, payLoop, hv, eq_self_iff_true, if_true]
    exact payLoop_skip d t bs _ ht
  | cons pc s ih =>
    have hpc : d.count pc.2 ≠ 1 := hs pc (by simp)
    have hs' : ∀ q ∈ s, d.count q.2 ≠ 1 := fun q hq => hs q (by simp [hq])
    simpa [payLoop, hpc] using ih ps hs'

/-- Frame property: a player index never paid by any processed entry keeps
its `players` record unchanged. -/
theorem payLoop_frame (d : List Nat) (L : List (Nat × Nat)) (bills : List Nat)
    (ps : List Player) (i : Nat)
    (h : ∀ pc ∈ L, pc.1 = i → d.count pc.2 ≠ 1) :
    (payLoop d L bills ps).1[i]? = ps[i]? := by
  induction L generalizing bills ps with
  | nil => simp [payLoop]
  | cons pc rest ih =>
    have hrest : ∀ q ∈ rest, q.1 = i → d.count q.2 ≠ 1 :=
      fun q hq => h q (by simp [hq])
    cases bills with
    | nil => simpa [payLoop] using ih [] ps hrest
    | cons b bs =>
      by_cases hc : d.count pc.2 = 1
      · have hne : pc.1 ≠ i := fun he => h pc (by simp) he hc
        simp only [payLoop, hc, eq_self_iff_true, if_true]
        rw [ih bs _ hrest]
        exact getElem?_updAt_ne i pc.1 _ ps (fun he => hne he.symm)
      · simpa [payLoop, hc] using ih (b :: bs) ps hrest

/-- The loop never touches any player's dice. -/
theorem payLoop_dice (d : List Nat) (L : List (Nat × Nat)) (bills : List Nat)
    (ps : List Player) :
    (payLoop d L bills ps).1.map (fun p => p.dice) = ps.map (fun p => p.dice) := by
  induction L generalizing bills ps with
  | nil => simp [payLoop]
  | cons pc rest ih =>
    cases bills with
    | nil => simpa [payLoop] using ih [] ps
    | cons b bs =>
      by_cases hc : d.count pc.2 = 1
      · simp only [payLoop, hc, eq_self_iff_true, if_true]
        rw [ih bs]
        exact map_updAt _ _ _ _ (fun p => rfl)
      · simpa [payLoop, hc] using ih (b :: bs) ps

/-- The loop preserves the length of the players list. -/
theorem payLoop_players_length (d : List Nat) (L : List (Nat × Nat))
    (bills : List Nat) (ps : List Player) :
    (payLoop d L bills ps).1.length = ps.length := by
  have h := congrArg List.length (payLoop_dice d L bills ps)
  simpa using h

/-- The remaining bills are a suffix of the initial ones: payouts pop off
the front (`casino["bills"].pop(0)`). -/
theorem payLoop_bills_suffix (d : List Nat) (L : List (Nat × Nat))
    (bills : List Nat) (ps : List Player) :
    ∃ popped, bills = popped ++ (payLoop d L bills ps).2 := by
  induction L generalizing bills ps with
  | nil => exact ⟨[], by simp [payLoop]⟩
  | cons pc rest ih =>
    cases bills with
    | nil => simpa [payLoop] using ih [] ps
    | cons b bs =>
      by_cases hc : d.count pc.2 = 1
      · obtain ⟨pp, hpp⟩ := ih bs (updAt pc.1 (fun p => { p with cash := p.cash + b }) ps)
        refine ⟨b :: pp, ?_⟩
        simp only [payLoop, hc, eq_self_iff_true, if_true, List.cons_append]
        exact congrArg (List.cons b) hpp
      · obtain ⟨pp, hpp⟩ := ih (b :: bs) ps
        refine ⟨pp, ?_⟩
        simpa [payLoop, hc] using hpp

end LasVegas

/-! ### Counting helpers -/

namespace LasVegas

theorem mem_getElem? {α : Type} {l : List α} {a : α} (h : a ∈ l) :
    ∃ i : Nat, l[i]? = some a := by
  induction l with
  | nil => simp at h
  | cons b l ih =>
    rcases List.mem_cons.mp h with rfl | h'
    · exact ⟨0, by simp⟩
    · obtain ⟨i, hi⟩ := ih h'
      exact ⟨i + 1, by simpa using hi⟩

/-- Four pairwise distinct values cannot have counts summing beyond the
list's length. -/
theorem counts_four_le_length (d : List Nat) (a b c e : Nat)
    (hab : a ≠ b) (hac : a ≠ c) (hae : a ≠ e) (hbc : b ≠ c) (hbe : b ≠ e)
    (hce : c ≠ e) :
    d.count a + d.count b + d.count c + d.count e ≤ d.length := by
  induction d with
  | nil => simp
  | cons hd tl ih =>
    simp only [List.count_cons, List.length_cons]
    by_cases h1 : hd = a <;> by_cases h2 : hd = b <;> by_cases h3 : hd = c <;>
      by_cases h4 : hd = e <;> simp_all <;> omega

/-- In a list of length 5 whose value counts are 2 (for `3`), 1 (for `1`)
and 2 (for some `x`), every member is `3`, `1` or `x`. -/
theorem mem_of_five_counts (d : List Nat) (x : Nat) (hlen : d.length = 5)
    (h3 : d.count 3 = 2) (h1 : d.count 1 = 1) (hx3 : x ≠ 3) (hx1 : x ≠ 1)
    (hx : d.count x = 2) : ∀ v ∈ d, v = 3 ∨ v = 1 ∨ v = x := by
  intro v hv
  by_contra hcon
  push_neg at hcon
  obtain ⟨hv3, hv1, hvx⟩ := hcon
  have hvpos : 0 < d.count v := List.count_pos_iff.mpr hv
  have := counts_four_le_length d 3 1 x v (by omega) (fun h => hx3 h.symm)
    (fun h => hv3 h.symm) (fun h => hx1 h.symm) (fun h => hv1 h.symm)
    (fun h => hvx h.symm)
  omega

/-- A value occurring exactly once occupies a unique position. -/
theorem count_one_pos_unique {l : List Nat} {v : Nat} (h : l.count v = 1)
    {i j : Nat} (hi : l[i]? = some v) (hj : l[j]? = some v) : i = j := by
  induction l generalizing i j with
  | nil => simp at hi
  | cons a l ih =>
    by_cases ha : a = v
    · subst ha
      have hc : l.count a = 0 := by
        rw [List.count_cons] at h
        simp at h
        omega
      have hnm : a ∉ l := List.count_eq_zero.mp hc
      cases i with
      | zero =>
        cases j with
        | zero => rfl
        | succ m =>
          simp at hj
          exact absurd (List.getElem?_mem hj) hnm
      | succ m =>
        simp at hi
        exact absurd (List.getElem?_mem hi) hnm
    · have hc : l.count v = 1 := by
        have := List.count_cons v a l
        simp [ha] at this
        omega
      cases i with
      | zero =>
        simp at hi
        exact absurd hi ha
      | succ m =>
        cases j with
        | zero =>
          simp at hj
          exact absurd hj ha
        | succ n =>
          simp at hi hj
          exact congrArg Nat.succ (ih hc hi hj)

end LasVegas

/-! ### Claims C1 and C2: tie handling in round resolution -/

namespace LasVegas

/-- C1: in `advance_round`'s per-casino payout, if exactly two players
placed 3 dice, a third placed 1 die, and the remaining two slots are tied
at some other count `x`, then the 3-dice rank is forfeited — both players
with 3 dice keep their record unchanged — while the player with the unique
1-dice count is paid the head of the casino's bill list (a positive bill). -/
theorem tie_at_three_forfeits_unique_one_gets_bill
    (c : Casino) (ps : List Player) (x b : Nat) (bs : List Nat)
    (hbills : c.bills = b :: bs) (hbpos : 0 < b)
    (hlen : c.dice.length = 5)
    (h3 : c.dice.count 3 = 2) (h1 : c.dice.count 1 = 1)
    (hx3 : x ≠ 3) (hx1 : x ≠ 1) (hx : c.dice.count x = 2) :
    (∀ i : Nat, c.dice[i]? = some 3 → (resolveCasino c ps).1[i]? = ps[i]?) ∧
    (∀ i : Nat, c.dice[i]? = some 1 →
      (resolveCasino c ps).1[i]? =
        (ps[i]?).map (fun p : Player => { p with cash := p.cash + b })) := by
  have hmem1 : (1 : Nat) ∈ c.dice := List.count_pos_iff.mp (by omega)
  obtain ⟨i1, hi1⟩ := mem_getElem? hmem1
  have hperm : ((sortByCnt (enumFrom 0 c.dice)).reverse).Perm (enumFrom 0 c.dice) :=
    (List.reverse_perm _).trans (sortByCnt_perm _)
  have hmemL : (i1, (1 : Nat)) ∈ (sortByCnt (enumFrom 0 c.dice)).reverse :=
    (hperm.mem_iff).mpr (mem_enumFrom_zero.mpr hi1)
  obtain ⟨s, t, hst⟩ := List.append_of_mem hmemL
  have hnodupL : ((sortByCnt (enumFrom 0 c.dice)).reverse).Nodup :=
    hperm.nodup_iff.mpr (enumFrom_nodup 0 c.dice)
  have hnotst : (i1, (1 : Nat)) ∉ s ∧ (i1, (1 : Nat)) ∉ t := by
    rw [hst, List.nodup_append] at hnodupL
    exact ⟨fun hm => hnodupL.2.2 hm (by simp),
      by simpa using (List.nodup_cons.mp hnodupL.2.1).1⟩
  have hside : ∀ q ∈ s ++ t, c.dice.count q.2 ≠ 1 := by
    intro q hq
    have hqL : q ∈ (sortByCnt (enumFrom 0 c.dice)).reverse := by
      rw [hst]
      rcases List.mem_append.mp hq with h | h
      · exact List.mem_append.mpr (Or.inl h)
      · exact List.mem_append.mpr (Or.inr (by simp [h]))
    have hqe : c.dice[q.1]? = some q.2 :=
      mem_enumFrom_zero.mp ((hperm.mem_iff).mp hqL)
    have hqv : q.2 = 3 ∨ q.2 = 1 ∨ q.2 = x :=
      mem_of_five_counts c.dice x hlen h3 h1 hx3 hx1 hx q.2 (List.getElem?_mem hqe)
    rcases hqv with h | h | h
    · rw [h, h3]; omega
    · exfalso
      have : q.1 = i1 := count_one_pos_unique h1 (h ▸ hqe) hi1
      have hq1 : q = (i1, (1 : Nat)) := by
        cases q
        simp_all
      rcases List.mem_append.mp hq with hm | hm
      · exact hnotst.1 (hq1 ▸ hm)
      · exact hnotst.2 (hq1 ▸ hm)
    · rw [h, hx]; omega
  have hs : ∀ q ∈ s, c.dice.count q.2 ≠ 1 :=
    fun q hq => hside q (List.mem_append.mpr (Or.inl hq))
  have ht : ∀ q ∈ t, c.dice.count q.2 ≠ 1 :=
    fun q hq => hside q (List.mem_append.mpr (Or.inr hq))
  have hres : (resolveCasino c ps) =
      (updAt i1 (fun p => { p with cash := p.cash + b }) ps, bs) := by
    rw [resolveCasino, hbills, hst]
    exact payLoop_pay_unique c.dice s t i1 1 b bs ps h1 hs ht
  constructor
  · intro i hi
    have hne : i ≠ i1 := by
      intro he
      rw [he, hi1] at hi
      simp at hi
    rw [hres]
    exact getElem?_updAt_ne i i1 _ ps hne
  · intro i hi
    have he : i = i1 := count_one_pos_unique h1 hi hi1
    rw [hres, he]
    exact getElem?_updAt_self i1 _ ps

/-- Witness for C1 at a concrete casino `dice = [3,3,1,0,0]`,
`bills = [90,80,10,0,0]`: slots 0 and 1 (the tied 3s) are unchanged and
slot 2 (the unique 1) gains the 90 bill. -/
theorem tie_at_three_forfeits_unique_one_gets_bill_witness :
    ((resolveCasino ⟨[90, 80, 10, 0, 0], [3, 3, 1, 0, 0]⟩
        (List.replicate 5 (⟨0, 0⟩ : Player))).1[0]? =
      (List.replicate 5 (⟨0, 0⟩ : Player))[0]?) ∧
    ((resolveCasino ⟨[90, 80, 10, 0, 0], [3, 3, 1, 0, 0]⟩
        (List.replicate 5 (⟨0, 0⟩ : Player))).1[2]? =
      ((List.replicate 5 (⟨0, 0⟩ : Player))[2]?).map
        (fun p : Player => { p with cash := p.cash + 90 })) := by
  have h := tie_at_three_forfeits_unique_one_gets_bill
    ⟨[90, 80, 10, 0, 0], [3, 3, 1, 0, 0]⟩ (List.replicate 5 (⟨0, 0⟩ : Player))
    0 90 [80, 10, 0, 0] rfl (by decide) (by decide) (by decide) (by decide)
    (by decide) (by decide) (by decide)
  exact ⟨h.1 0 (by decide), h.2 2 (by decide)⟩

/-- C2 counterexample: with `dice = [3,3,1,0,0]` and
`bills = [90,80,10,0,0]`, the count 3 is tied, yet the bill that would
have been consumed at that rank (the head bill 90) does NOT stay with the
casino: it is paid to the lower unique rank (player 2), and the leftover
bills recycled are `[80, 10]` only. -/
theorem tied_rank_bill_passes_down_cex :
    (([3, 3, 1, 0, 0] : List Nat).count 3 = 2) ∧
    ((resolveCasino ⟨[90, 80, 10, 0, 0], [3, 3, 1, 0, 0]⟩
        (List.replicate 5 (⟨0, 0⟩ : Player))).1.map (fun p => p.cash) =
      [0, 0, 90, 0, 0]) ∧
    ((resolveCasino ⟨[90, 80, 10, 0, 0], [3, 3, 1, 0, 0]⟩
        (List.replicate 5 (⟨0, 0⟩ : Player))).2 = [80, 10, 0, 0]) ∧
    ¬ (90 ∈ (resolveCasino ⟨[90, 80, 10, 0, 0], [3, 3, 1, 0, 0]⟩
        (List.replicate 5 (⟨0, 0⟩ : Player))).2) := by
  decide

/-- C2 (amended): whenever two or more players share the same placed-dice
count in a casino, no player with that count receives a payout there. -/
theorem tied_count_no_payout (c : Casino) (ps : List Player) (v : Nat)
    (hv : 2 ≤ c.dice.count v) :
    ∀ i : Nat, c.dice[i]? = some v → (resolveCasino c ps).1[i]? = ps[i]? := by
  intro i hi
  apply payLoop_frame
  intro pc hpc hpci
  have hperm : ((sortByCnt (enumFrom 0 c.dice)).reverse).Perm (enumFrom 0 c.dice) :=
    (List.reverse_perm _).trans (sortByCnt_perm _)
  have hqe : c.dice[pc.1]? = some pc.2 :=
    mem_enumFrom_zero.mp ((hperm.mem_iff).mp hpc)
  rw [hpci, hi] at hqe
  have : pc.2 = v := by simpa using hqe.symm
  rw [this]
  omega

/-- Witness for the amended C2 at `dice = [3,3,1,0,0]`: tied slot 0 keeps
its record unchanged. -/
theorem tied_count_no_payout_witness :
    (2 ≤ ([3, 3, 1, 0, 0] : List Nat).count 3) ∧
    ((resolveCasino ⟨[90, 80, 10, 0, 0], [3, 3, 1, 0, 0]⟩
        (List.replicate 5 (⟨0, 0⟩ : Player))).1[0]? =
      (List.replicate 5 (⟨0, 0⟩ : Player))[0]?) :=
  ⟨by decide,
   tied_count_no_payout ⟨[90, 80, 10, 0, 0], [3, 3, 1, 0, 0]⟩
     (List.replicate 5 (⟨0, 0⟩ : Player)) 3 (by decide) 0 (by decide)⟩

end LasVegas

/-! ### Structure lemmas for the resolve phase -/

namespace LasVegas

theorem resolveList_casinos_dice (cs : List Casino) (ps : List Player)
    (deck : List Nat) :
    (resolveList cs ps deck).1.map (fun c => c.dice) = cs.map (fun c => c.dice) := by
  induction cs generalizing ps deck with
  | nil => simp [resolveList]
  | cons c cs ih => simp [resolveList, ih]

theorem resolveList_casinos_length (cs : List Casino) (ps : List Player)
    (deck : List Nat) : (resolveList cs ps deck).1.length = cs.length := by
  have h := congrArg List.length (resolveList_casinos_dice cs ps deck)
  simpa using h

theorem resolveList_players_dice (cs : List Casino) (ps : List Player)
    (deck : List Nat) :
    (resolveList cs ps deck).2.1.map (fun p => p.dice) = ps.map (fun p => p.dice) := by
  induction cs generalizing ps deck with
  | nil => simp [resolveList]
  | cons c cs ih =>
    simp only [resolveList]
    rw [ih]
    exact payLoop_dice c.dice _ c.bills ps

theorem resolveList_players_length (cs : List Casino) (ps : List Player)
    (deck : List Nat) : (resolveList cs ps deck).2.1.length = ps.length := by
  have h := congrArg List.length (resolveList_players_dice cs ps deck)
  simpa using h

theorem resolveList_deck_append (cs : List Casino) (ps : List Player)
    (deck : List Nat) :
    ∃ r, (resolveList cs ps deck).2.2 = deck ++ r := by
  induction cs generalizing ps deck with
  | nil => exact ⟨[], by simp [resolveList]⟩
  | cons c cs ih =>
    obtain ⟨r, hr⟩ := ih (resolveCasino c ps).1
      (deck ++ (resolveCasino c ps).2.filter (fun b => b ≠ 0))
    exact ⟨(resolveCasino c ps).2.filter (fun b => b ≠ 0) ++ r, by
      simp only [resolveList]
      rw [hr, List.append_assoc]⟩

theorem resolvePhase_round (g : GameState) : (resolvePhase g).round = g.round := rfl

theorem resolvePhase_first_player (g : GameState) :
    (resolvePhase g).first_player = g.first_player := rfl

theorem resolvePhase_num_players (g : GameState) :
    (resolvePhase g).num_players = g.num_players := rfl

theorem resolvePhase_players_dice (g : GameState) :
    (resolvePhase g).players.map (fun p => p.dice) =
      g.players.map (fun p => p.dice) := by
  simp only [resolvePhase]
  exact resolveList_players_dice g.casinos g.players g.deck

theorem resolvePhase_casinos_dice (g : GameState) :
    (resolvePhase g).casinos.map (fun c => c.dice) =
      g.casinos.map (fun c => c.dice) := by
  simp only [resolvePhase]
  exact resolveList_casinos_dice g.casinos g.players g.deck

theorem resolvePhase_deck_append (g : GameState) :
    ∃ r, (resolvePhase g).deck = g.deck ++ r := by
  simp only [resolvePhase]
  exact resolveList_deck_append g.casinos g.players g.deck

/-- Transfer a dice-map equality to the `getD` accesses `is_end_round` uses. -/
theorem dice_getD_of_map_eq {ps ps' : List Player}
    (h : ps'.map (fun p => p.dice) = ps.map (fun p => p.dice)) (i : Nat) :
    (ps'.getD i default).dice = (ps.getD i default).dice := by
  have h2 : (ps'.map (fun p => p.dice))[i]? = (ps.map (fun p => p.dice))[i]? := by
    rw [h]
  rw [List.getElem?_map, List.getElem?_map] at h2
  rw [List.getD_eq_getElem?_getD, List.getD_eq_getElem?_getD]
  cases hp : ps'[i]? with
  | none =>
    rw [hp] at h2
    cases hq : ps[i]? with
    | none => simp
    | some q =>
      rw [hq] at h2
      simp at h2
  | some p =>
    rw [hp] at h2
    cases hq : ps[i]? with
    | none =>
      rw [hq] at h2
      simp at h2
    | some q =>
      rw [hq] at h2
      simp at h2
      simp [h2]

end LasVegas

/-! ### Claim C9: `advance_round` on the final round -/

namespace LasVegas

/-- C9: calling `advance_round` with `round == NUM_ROUNDS` and the round
over performs the payout-and-recycle phase only, for every shuffle input:
it does not reshuffle (the result is independent of the shuffle argument
and the deck only has the recycled bills appended), does not re-deal (the
casinos' dice records are untouched), does not reset any player's dice,
leaves `round` and `first_player` unchanged, and afterwards `is_end_game`
is true. -/
theorem advance_round_final_frame (g : GameState) (sd : List Nat)
    (h4 : g.round = NUM_ROUNDS) (hend : is_end_round g = true) :
    advance_round g sd = some (resolvePhase g) ∧
    (resolvePhase g).round = g.round ∧
    (resolvePhase g).first_player = g.first_player ∧
    (resolvePhase g).players.map (fun p => p.dice) =
      g.players.map (fun p => p.dice) ∧
    (resolvePhase g).casinos.map (fun c => c.dice) =
      g.casinos.map (fun c => c.dice) ∧
    (∃ r, (resolvePhase g).deck = g.deck ++ r) ∧
    is_end_game (resolvePhase g) = true := by
  have hnotlt : ¬ (resolvePhase g).round < NUM_ROUNDS := by
    rw [resolvePhase_round, h4]
    omega
  refine ⟨?_, resolvePhase_round g, resolvePhase_first_player g,
    resolvePhase_players_dice g, resolvePhase_casinos_dice g,
    resolvePhase_deck_append g, ?_⟩
  · rw [advance_round, if_pos hend]
    simp [hnotlt]
  · have hdice := dice_getD_of_map_eq (resolvePhase_players_dice g)
    rw [is_end_game]
    have her : is_end_round (resolvePhase g) = true := by
      rw [is_end_round, List.all_eq_true]
      intro i hi
      show (((resolvePhase g).players.getD i default).dice == 0) = true
      rw [hdice i]
      exact (List.all_eq_true.mp hend) i
        (by simpa [resolvePhase_num_players] using hi)
    rw [her, resolvePhase_round, h4]
    simp

/-- Witness for C9: a concrete terminal-round state (2 players, all dice
placed, round 4). -/
theorem advance_round_final_frame_witness :
    (let gw : GameState :=
      ⟨2, [⟨30, 0⟩, ⟨50, 0⟩, ⟨0, 0⟩, ⟨0, 0⟩, ⟨0, 0⟩], [10, 20],
       [⟨[90, 0, 0, 0, 0], [8, 0, 0, 0, 0]⟩,
        ⟨[70, 30, 0, 0, 0], [0, 8, 0, 0, 0]⟩,
        ⟨[60, 0, 0, 0, 0], [0, 0, 0, 0, 0]⟩,
        ⟨[60, 0, 0, 0, 0], [0, 0, 0, 0, 0]⟩,
        ⟨[60, 0, 0, 0, 0], [0, 0, 0, 0, 0]⟩,
        ⟨[50, 10, 0, 0, 0], [0, 0, 0, 0, 0]⟩], 1, 4⟩;
     gw.round = NUM_ROUNDS ∧ is_end_round gw = true ∧
     advance_round gw [40] = some (resolvePhase gw) ∧
     is_end_game (resolvePhase gw) = true) := by
  refine ⟨by decide, by decide, ?_, ?_⟩
  · exact (advance_round_final_frame _ [40] (by decide) (by decide)).1
  · exact (advance_round_final_frame _ [40] (by decide) (by decide)).2.2.2.2.2.2

end LasVegas

/-! ### Claim C7: `play_move` validation and effect -/

namespace LasVegas

/-- C7: `play_move` fails (raises, modelled `none`, with no state change)
when the player index is outside `[0, num_players)`, the casino index is
outside `[0, 6)`, or `roll_counts[action] == 0`; otherwise it succeeds,
decrements the player's remaining dice by exactly `roll_counts[action]`,
increments that casino's recorded dice count for that player by the same
amount, and touches nothing else. -/
theorem play_move_spec (g : GameState) (p a : Nat) (rc : List Nat) :
    (¬ p < g.num_players → play_move g p a rc = none) ∧
    (¬ a < 6 → play_move g p a rc = none) ∧
    (rc.getD a 0 = 0 → play_move g p a rc = none) ∧
    (p < g.num_players → a < 6 → 0 < rc.getD a 0 →
      ∃ g', play_move g p a rc = some g' ∧
        (g'.players[p]?).map (fun q => q.dice) =
          (g.players[p]?).map (fun q => q.dice - (rc.getD a 0 : Int)) ∧
        (g'.casinos[a]?).map (fun c => c.dice[p]?) =
          (g.casinos[a]?).map
            (fun c => (c.dice[p]?).map (fun m => m + rc.getD a 0)) ∧
        (∀ q : Nat, q ≠ p → g'.players[q]? = g.players[q]?) ∧
        (∀ q : Nat, q ≠ a → g'.casinos[q]? = g.casinos[q]?) ∧
        g'.num_players = g.num_players ∧ g'.deck = g.deck ∧
        g'.first_player = g.first_player ∧ g'.round = g.round) := by
  refine ⟨fun h => by simp [play_move, h], fun h => ?_, fun h => ?_, ?_⟩
  · by_cases hp : p < g.num_players
    · simp [play_move, hp, h]
    · simp [play_move, hp]
  · by_cases hp : p < g.num_players
    · by_cases ha : a < 6
      · have h2 : rc[a]?.getD 0 = 0 := by
          rw [← List.getD_eq_getElem?_getD]
          exact h
        simp [play_move, hp, ha, h2]
      · simp [play_move, hp, ha]
    · simp [play_move, hp]
  · intro hp ha hrc
    have hg' : play_move g p a rc = some { g with
        players := updAt p
          (fun q => { q with dice := q.dice - (rc.getD a 0 : Int) }) g.players,
        casinos := updAt a
          (fun c => { c with dice := updAt p (fun m => m + rc.getD a 0) c.dice })
          g.casinos } := by
      rw [play_move, if_pos hp, if_pos ha, if_pos hrc]
    refine ⟨_, hg', ?_, ?_, ?_, ?_, rfl, rfl, rfl, rfl⟩
    · show (updAt p
          (fun q => { q with dice := q.dice - (rc.getD a 0 : Int) })
          g.players)[p]?.map (fun q => q.dice) = _
      rw [getElem?_updAt_self]
      cases g.players[p]? <;> rfl
    · show (updAt a
          (fun c => { c with dice := updAt p (fun m => m + rc.getD a 0) c.dice })
          g.casinos)[a]?.map (fun c => c.dice[p]?) = _
      rw [getElem?_updAt_self]
      cases hc : g.casinos[a]? with
      | none => simp
      | some c =>
        show some ((updAt p (fun m => m + rc.getD a 0) c.dice)[p]?) = _
        rw [getElem?_updAt_self]
        rfl
    · intro q hq
      exact getElem?_updAt_ne q p _ g.players hq
    · intro q hq
      exact getElem?_updAt_ne q a _ g.casinos hq

/-- Witness for C7 on a concrete 2-player state: rejection on a bad player,
a bad casino, a zero roll count, and the successful effect. -/
theorem play_move_spec_witness :
    (let gw : GameState :=
      ⟨2, [⟨0, 8⟩, ⟨0, 8⟩, ⟨0, 0⟩, ⟨0, 0⟩, ⟨0, 0⟩], [10, 20],
       [⟨[90, 0, 0, 0, 0], [0, 0, 0, 0, 0]⟩,
        ⟨[70, 30, 0, 0, 0], [0, 0, 0, 0, 0]⟩,
        ⟨[60, 0, 0, 0, 0], [0, 0, 0, 0, 0]⟩,
        ⟨[60, 0, 0, 0, 0], [0, 0, 0, 0, 0]⟩,
        ⟨[60, 0, 0, 0, 0], [0, 0, 0, 0, 0]⟩,
        ⟨[50, 10, 0, 0, 0], [0, 0, 0, 0, 0]⟩], 0, 1⟩;
     play_move gw 2 0 [8, 0, 0, 0, 0, 0] = none ∧
     play_move gw 0 6 [8, 0, 0, 0, 0, 0] = none ∧
     play_move gw 0 1 [8, 0, 0, 0, 0, 0] = none ∧
     ∃ g', play_move gw 0 0 [8, 0, 0, 0, 0, 0] = some g' ∧
        (g'.players[0]?).map (fun q => q.dice) =
          (gw.players[0]?).map (fun q => q.dice - (8 : Int)) ∧
        (g'.casinos[0]?).map (fun c => c.dice[0]?) =
          (gw.casinos[0]?).map
            (fun c => (c.dice[0]?).map (fun m => m + 8)) ∧
        (∀ q : Nat, q ≠ 0 → g'.players[q]? = gw.players[q]?) ∧
        (∀ q : Nat, q ≠ 0 → g'.casinos[q]? = gw.casinos[q]?) ∧
        g'.num_players = gw.num_players ∧ g'.deck = gw.deck ∧
        g'.first_player = gw.first_player ∧ g'.round = gw.round) := by
  refine ⟨?_, ?_, ?_, ?_⟩
  · exact (play_move_spec _ 2 0 [8, 0, 0, 0, 0, 0]).1 (by decide)
  · exact (play_move_spec _ 0 6 [8, 0, 0, 0, 0, 0]).2.1 (by decide)
  · exact (play_move_spec _ 0 1 [8, 0, 0, 0, 0, 0]).2.2.1 (by decide)
  · exact (play_move_spec _ 0 0 [8, 0, 0, 0, 0, 0]).2.2.2
      (by decide) (by decide) (by decide)

end LasVegas

/-! ### Claim C10: dice stay in `[0, NUM_DICE]` -/

namespace LasVegas

theorem getD_le_sum (rc : List Nat) (a : Nat) : rc.getD a 0 ≤ rc.sum := by
  induction rc generalizing a with
  | nil => simp
  | cons b l ih =>
    cases a with
    | zero => simp
    | succ m =>
      have := ih m
      simp only [List.getD_cons_succ, List.sum_cons]
      omega

theorem map_enumFrom_getElem? {α β : Type} (f : Nat × α → β) (ps : List α)
    (k i : Nat) :
    ((enumFrom k ps).map f)[i]? = (ps[i]?).map (fun x => f (k + i, x)) := by
  induction ps generalizing k i with
  | nil => simp [enumFrom]
  | cons p ps ih =>
    cases i with
    | zero => simp [enumFrom]
    | succ m =>
      have := ih (k + 1) m
      simp only [enumFrom, List.map_cons, List.getElem?_cons_succ, this]
      have harith : k + 1 + m = k + (m + 1) := by omega
      rw [harith]

theorem resetActive_getElem? (n : Nat) (ps : List Player) (i : Nat) :
    (resetActive n ps)[i]? =
      (ps[i]?).map
        (fun p => if i < n then { p with dice := (NUM_DICE : Int) } else p) := by
  rw [resetActive, map_enumFrom_getElem? _ ps 0 i]
  simp

theorem map_const_getElem? {α β γ : Type} (l : List α) (l' : List β)
    (h : l.length = l'.length) (i : Nat) (c : γ) :
    (l[i]?).map (fun _ => c) = (l'[i]?).map (fun _ => c) := by
  by_cases hi : i < l.length
  · rw [List.getElem?_eq_getElem hi, List.getElem?_eq_getElem (h ▸ hi)]
    rfl
  · rw [List.getElem?_eq_none (by omega), List.getElem?_eq_none (by omega)]
    rfl

/-- C10: a player's `dice` stays in `[0, NUM_DICE]`: construction sets it
to `NUM_DICE` (active slots) or `0` (inactive slots); `play_move`, given
roll counts that come from a legal roll of the player's remaining dice
(their sum equals that player's `dice`, as `roll_dice` produces) and a
current value in range, keeps it in range; and the round reset of
`advance_round` restores every active player's `dice` to `NUM_DICE`. -/
theorem dice_bounds_spec :
    (∀ n i : Nat, ((mkPlayers n).getD i default).dice =
        if i < n ∧ i < MAX_PLAYERS then (NUM_DICE : Int) else 0) ∧
    (∀ (g : GameState) (p a : Nat) (rc : List Nat) (g' : GameState),
      (rc.sum : Int) = (g.players.getD p default).dice →
      0 ≤ (g.players.getD p default).dice →
      (g.players.getD p default).dice ≤ (NUM_DICE : Int) →
      play_move g p a rc = some g' →
      0 ≤ (g'.players.getD p default).dice ∧
        (g'.players.getD p default).dice ≤ (NUM_DICE : Int)) ∧
    (∀ (g : GameState) (sd : List Nat) (g' : GameState),
      g.round < NUM_ROUNDS → advance_round g sd = some g' →
      ∀ i : Nat, i < g.num_players →
        (g'.players[i]?).map (fun p => p.dice) =
          (g.players[i]?).map (fun _ => (NUM_DICE : Int))) := by
  refine ⟨?_, ?_, ?_⟩
  · intro n i
    rw [mkPlayers, List.getD_eq_getElem?_getD, List.getElem?_map]
    by_cases hi : i < MAX_PLAYERS
    · rw [List.getElem?_range hi]
      by_cases hn : i < n
      · simp [hn, hi]
      · simp [hn, hi]
    · rw [List.getElem?_eq_none (by simpa using hi)]
      rw [if_neg (fun hcon => hi hcon.2)]
      rfl
  · intro g p a rc g' hsum hlo hhi hmv
    rw [play_move] at hmv
    by_cases hp : p < g.num_players
    · rw [if_pos hp] at hmv
      by_cases ha : a < 6
      · rw [if_pos ha] at hmv
        by_cases hrc : 0 < rc.getD a 0
        · rw [if_pos hrc] at hmv
          have hg' : g' = { g with
              players := updAt p
                (fun q => { q with dice := q.dice - (rc.getD a 0 : Int) })
                g.players,
              casinos := updAt a
                (fun c =>
                  { c with dice := updAt p (fun m => m + rc.getD a 0) c.dice })
                g.casinos } := by
            have := hmv
            simp only [Option.some.injEq] at this
            exact this.symm
          subst hg'
          have hup : (updAt p
              (fun q => { q with dice := q.dice - (rc.getD a 0 : Int) })
              g.players)[p]? = (g.players[p]?).map
              (fun q => { q with dice := q.dice - (rc.getD a 0 : Int) }) :=
            getElem?_updAt_self p _ g.players
          have hle : (rc.getD a 0 : Int) ≤ rc.sum := by
            exact_mod_cast getD_le_sum rc a
          rw [List.getD_eq_getElem?_getD] at hlo hhi hsum ⊢
          cases hq : g.players[p]? with
          | none =>
            rw [hq] at hlo hhi hsum
            show 0 ≤ ((updAt p _ g.players)[p]?.getD default).dice ∧ _
            rw [hup, hq]
            show (0 : Int) ≤ (default : Player).dice ∧
              (default : Player).dice ≤ (NUM_DICE : Int)
            exact ⟨by decide, by decide⟩
          | some q =>
            rw [hq] at hlo hhi hsum
            have hsum2 : (rc.sum : Int) = q.dice := hsum
            have hhi2 : q.dice ≤ (NUM_DICE : Int) := hhi
            show 0 ≤ ((updAt p _ g.players)[p]?.getD default).dice ∧ _
            rw [hup, hq]
            show 0 ≤ q.dice - (rc.getD a 0 : Int) ∧
              q.dice - (rc.getD a 0 : Int) ≤ (NUM_DICE : Int)
            omega
        · rw [if_neg hrc] at hmv
          exact absurd hmv (by simp)
      · rw [if_neg ha] at hmv
        exact absurd hmv (by simp)
    · rw [if_neg hp] at hmv
      exact absurd hmv (by simp)
  · intro g sd g' hlt hadv i hi
    rw [advance_round] at hadv
    by_cases hend : is_end_round g
    · rw [if_pos hend] at hadv
      have hlt' : (resolvePhase g).round < NUM_ROUNDS := by
        rw [resolvePhase_round]
        exact hlt
      rw [if_pos hlt'] at hadv
      cases hdeal : deal_bills sd with
      | none =>
        rw [hdeal] at hadv
        exact absurd hadv (by simp)
      | some cd =>
        obtain ⟨cs, d⟩ := cd
        rw [hdeal] at hadv
        have hg' : g' = { resolvePhase g with
            deck := d, casinos := cs,
            players := resetActive (resolvePhase g).num_players
              (resolvePhase g).players,
            first_player :=
              ((resolvePhase g).first_player + 1) % (resolvePhase g).num_players,
            round := (resolvePhase g).round + 1 } := by
          have := hadv
          simp only [Option.some.injEq] at this
          exact this.symm
        subst hg'
        show (resetActive (resolvePhase g).num_players
            (resolvePhase g).players)[i]?.map (fun p => p.dice) = _
        rw [resetActive_getElem?]
        have hin : i < (resolvePhase g).num_players := by
          rw [resolvePhase_num_players]
          exact hi
        have hlen : (resolvePhase g).players.length = g.players.length := by
          simp only [resolvePhase]
          exact resolveList_players_length g.casinos g.players g.deck
        rw [Option.map_map]
        have hfun : ((fun p : Player => p.dice) ∘
            (fun p : Player => if i < (resolvePhase g).num_players then
              { p with dice := (NUM_DICE : Int) } else p)) =
            (fun _ : Player => (NUM_DICE : Int)) := by
          funext p
          simp [hin]
        rw [hfun]
        exact map_const_getElem? _ _ hlen i _
    · rw [if_neg hend] at hadv
      exact absurd hadv (by simp)

/-- A concrete fresh 2-player state used to witness C10's move clause. -/
def c10Move : GameState :=
  ⟨2, [⟨0, 8⟩, ⟨0, 8⟩, ⟨0, 0⟩, ⟨0, 0⟩, ⟨0, 0⟩], [],
   List.replicate 6 (⟨[], [0, 0, 0, 0, 0]⟩ : Casino), 0, 1⟩

/-- A concrete finished-round-1 2-player state used to witness C10's
round-reset clause. -/
def c10Adv : GameState :=
  ⟨2, [⟨0, 0⟩, ⟨0, 0⟩, ⟨0, 0⟩, ⟨0, 0⟩, ⟨0, 0⟩], initialDeck,
   List.replicate 6 (⟨[], [0, 0, 0, 0, 0]⟩ : Casino), 0, 1⟩

/-- Witness for C10: the three parts applied at concrete inputs
(2-player construction; one legal move of all 8 dice; a round-1
`advance_round` on a finished round). -/
theorem dice_bounds_spec_witness :
    (((mkPlayers 2).getD 0 default).dice =
        if 0 < 2 ∧ 0 < MAX_PLAYERS then (NUM_DICE : Int) else 0) ∧
    (0 ≤ (((play_move c10Move 0 0 [8, 0, 0, 0, 0, 0]).getD
         default).players.getD 0 default).dice ∧
      (((play_move c10Move 0 0 [8, 0, 0, 0, 0, 0]).getD
         default).players.getD 0 default).dice ≤ (NUM_DICE : Int)) ∧
    ((((advance_round c10Adv initialDeck).getD default).players[0]?).map
       (fun p => p.dice) =
      (c10Adv.players[0]?).map (fun _ => (NUM_DICE : Int))) := by
  refine ⟨dice_bounds_spec.1 2 0, ?_, ?_⟩
  · exact dice_bounds_spec.2.1 c10Move 0 0 [8, 0, 0, 0, 0, 0]
      ((play_move c10Move 0 0 [8, 0, 0, 0, 0, 0]).getD default)
      (by decide) (by decide) (by decide) rfl
  · exact dice_bounds_spec.2.2 c10Adv initialDeck
      ((advance_round c10Adv initialDeck).getD default)
      (by decide) rfl 0 (by decide)

end LasVegas

/-! ### Claim C8: the dealer -/

namespace LasVegas

theorem getLast?_split {α : Type} :
    ∀ {l : List α} {b : α}, l.getLast? = some b → l.dropLast ++ [b] = l
  | [], b, h => by simp at h
  | [a], b, h => by
    simp at h
    simp [h]
  | a :: c :: m, b, h => by
    have h' : (c :: m).getLast? = some b := by
      simpa [List.getLast?_cons_cons] using h
    have ih := getLast?_split h'
    simpa [List.dropLast_cons₂] using ih

theorem ten_mul_length_le_sum (l : List Nat) (h : ∀ x ∈ l, 10 ≤ x) :
    10 * l.length ≤ l.sum := by
  induction l with
  | nil => simp
  | cons a m ih =>
    have ha := h a (by simp)
    have := ih (fun x hx => h x (by simp [hx]))
    simp only [List.length_cons, List.sum_cons]
    omega

/-- Main loop invariant for the dealer's draw loop: with every bill worth
at least 10 and the deck large enough, the loop succeeds, stops with sum
at least 50, moves deck elements into the drawn list (a permutation
accounting), and the drawn list is either the initial accumulator or a
fresh draw appended to a sub-50 accumulated list. -/
theorem drawLoopF_spec :
    ∀ (fuel : Nat) (acc deck : List Nat),
      (∀ x ∈ deck, 10 ≤ x) → (∀ x ∈ acc, 10 ≤ x) →
      deck.length < fuel → 50 ≤ acc.sum + 10 * deck.length →
      ∃ bs d2, drawLoopF fuel acc deck = some (bs, d2) ∧ 50 ≤ bs.sum ∧
        (∀ x ∈ bs, 10 ≤ x) ∧
        (bs = acc ∨ ∃ pr y, bs = pr ++ [y] ∧ pr.sum < 50 ∧ (∀ x ∈ pr, 10 ≤ x)) ∧
        (bs ++ d2).Perm (acc ++ deck) := by
  intro fuel
  induction fuel with
  | zero => intro acc deck _ _ hf _; omega
  | succ fuel ih =>
    intro acc deck hdeck hacc hf hsum
    by_cases hge : 50 ≤ acc.sum
    · refine ⟨acc, deck, ?_, hge, hacc, Or.inl rfl, List.Perm.refl _⟩
      simp [drawLoopF, hge]
    · cases hlast : deck.getLast? with
      | none =>
        exfalso
        cases deck with
        | nil => simp at hsum; omega
        | cons a m => simp at hlast
      | some b =>
        have hsplit : deck.dropLast ++ [b] = deck := getLast?_split hlast
        have hbmem : b ∈ deck := by
          rw [← hsplit]
          simp
        have hlen : deck.dropLast.length + 1 = deck.length := by
          have := congrArg List.length hsplit
          simpa using this
        have hdeck' : ∀ x ∈ deck.dropLast, 10 ≤ x := by
          intro x hx
          apply hdeck
          rw [← hsplit]
          simp [hx]
        have hacc' : ∀ x ∈ acc ++ [b], 10 ≤ x := by
          intro x hx
          rcases List.mem_append.mp hx with h | h
          · exact hacc x h
          · simp at h
            exact h ▸ hdeck b hbmem
        have hb10 : 10 ≤ b := hdeck b hbmem
        obtain ⟨bs, d2, heq, hbsum, hbs10, hshape, hperm⟩ :=
          ih (acc ++ [b]) deck.dropLast hdeck' hacc' (by omega)
            (by
              simp only [List.sum_append, List.sum_cons, List.sum_nil]
              omega)
        refine ⟨bs, d2, ?_, hbsum, hbs10, ?_, ?_⟩
        · simp only [drawLoopF, if_neg hge, hlast]
          exact heq
        · right
          rcases hshape with rfl | ⟨pr, y, hpr, hprs, hpr10⟩
          · exact ⟨acc, b, rfl, by omega, hacc⟩
          · exact ⟨pr, y, hpr, hprs, hpr10⟩
        · refine hperm.trans ?_
          rw [List.append_assoc]
          have h3 := List.Perm.append_left acc
            (List.perm_append_comm :
              ([b] ++ deck.dropLast).Perm (deck.dropLast ++ [b]))
          rw [hsplit] at h3
          exact h3

/-- Wrapper version of `drawLoopF_spec` for `drawLoop` (the fuel is always enough). -/
theorem drawLoop_spec (deck : List Nat) (hdeck : ∀ x ∈ deck, 10 ≤ x)
    (hlen : 5 ≤ deck.length) :
    ∃ bs d2, drawLoop [] deck = some (bs, d2) ∧ 50 ≤ bs.sum ∧
      (∀ x ∈ bs, 10 ≤ x) ∧ bs.length ≤ 5 ∧ (bs ++ d2).Perm deck := by
  obtain ⟨bs, d2, heq, hbsum, hbs10, hshape, hperm⟩ :=
    drawLoopF_spec (deck.length + 1) [] deck hdeck (by simp) (by omega)
      (by simp; omega)
  refine ⟨bs, d2, heq, hbsum, hbs10, ?_, by simpa using hperm⟩
  rcases hshape with rfl | ⟨pr, y, rfl, hprs, hpr10⟩
  · simp at hbsum
  · have := ten_mul_length_le_sum pr hpr10
    simp only [List.length_append, List.length_cons, List.length_nil]
    omega

theorem sortDescNat_length (l : List Nat) : (sortDescNat l).length = l.length :=
  (sortDescNat_perm l).length_eq

theorem insertDesc_sorted (a : Nat) (l : List Nat)
    (h : List.Pairwise (fun x y => y ≤ x) l) :
    List.Pairwise (fun x y => y ≤ x) (insertDesc a l) := by
  induction l with
  | nil => simp [insertDesc]
  | cons b m ih =>
    by_cases hba : b ≤ a
    · simp only [insertDesc, if_pos hba]
      refine List.Pairwise.cons ?_ h
      intro x hx
      rcases List.mem_cons.mp hx with rfl | hx'
      · exact hba
      · exact le_trans ((List.pairwise_cons.mp h).1 x hx') hba
    · simp only [insertDesc, if_neg hba]
      have hp := List.pairwise_cons.mp h
      refine List.Pairwise.cons ?_ (ih hp.2)
      intro x hx
      have hx' : x ∈ a :: m := (insertDesc_perm a m).mem_iff.mp hx
      rcases List.mem_cons.mp hx' with rfl | hxm
      · omega
      · exact hp.1 x hxm

theorem sortDescNat_sorted (l : List Nat) :
    List.Pairwise (fun x y => y ≤ x) (sortDescNat l) := by
  induction l with
  | nil => simp [sortDescNat]
  | cons a m ih => exact insertDesc_sorted a (sortDescNat m) ih

/-- Filter-sum of non-zero entries is permutation-invariant and ignores
the zero padding. -/
theorem nz_filter_pad (bs : List Nat) (k : Nat) (h : ∀ x ∈ bs, 10 ≤ x) :
    ((sortDescNat (bs ++ List.replicate k 0)).filter (fun b => b ≠ 0)).sum
      = bs.sum := by
  have hperm := (sortDescNat_perm (bs ++ List.replicate k 0)).filter
    (fun b => decide (b ≠ 0))
  have hsum := hperm.sum_eq
  rw [hsum, List.filter_append]
  have h1 : (bs.filter (fun b => decide (b ≠ 0))) = bs := by
    apply List.filter_eq_self.mpr
    intro x hx
    have := h x hx
    simp
    omega
  have h2 : ((List.replicate k 0).filter (fun b => decide (b ≠ 0))) = [] := by
    apply List.filter_eq_nil_iff.mpr
    intro x hx
    have := List.eq_of_mem_replicate hx
    simp [this]
  rw [h1, h2, List.append_nil]

theorem nzCount_pad (bs : List Nat) (k : Nat) (h : ∀ x ∈ bs, 10 ≤ x) :
    nzCount (sortDescNat (bs ++ List.replicate k 0)) = bs.length := by
  have hperm := (sortDescNat_perm (bs ++ List.replicate k 0)).filter
    (fun b => decide (b ≠ 0))
  rw [nzCount]
  rw [hperm.length_eq, List.filter_append]
  have h1 : (bs.filter (fun b => decide (b ≠ 0))) = bs := by
    apply List.filter_eq_self.mpr
    intro x hx
    have := h x hx
    simp
    omega
  have h2 : ((List.replicate k 0).filter (fun b => decide (b ≠ 0))) = [] := by
    apply List.filter_eq_nil_iff.mpr
    intro x hx
    have := List.eq_of_mem_replicate hx
    simp [this]
  rw [h1, h2, List.append_nil]

end LasVegas

namespace LasVegas

/-- Specification of dealing one casino from a deck of real bills. -/
theorem dealOne_spec (deck : List Nat) (hdeck : ∀ x ∈ deck, 10 ≤ x)
    (hlen : 5 ≤ deck.length) :
    ∃ bills d2, dealOne deck = some (bills, d2) ∧
      bills.length = 5 ∧
      List.Pairwise (fun x y => y ≤ x) bills ∧
      50 ≤ (bills.filter (fun b => b ≠ 0)).sum ∧
      d2.length + nzCount bills = deck.length ∧
      (∀ x ∈ d2, x ∈ deck) ∧
      (∀ b ∈ bills, b = 0 ∨ b ∈ deck) := by
  obtain ⟨bs, d2, heq, hbsum, hbs10, hbslen, hperm⟩ := drawLoop_spec deck hdeck hlen
  refine ⟨sortDescNat (bs ++ List.replicate (5 - bs.length) 0), d2, ?_, ?_, ?_,
    ?_, ?_, ?_, ?_⟩
  · rw [dealOne, heq]
  · rw [sortDescNat_length]
    simp only [List.length_append, List.length_replicate]
    omega
  · exact sortDescNat_sorted _
  · rw [nz_filter_pad bs _ hbs10]
    exact hbsum
  · rw [nzCount_pad bs _ hbs10]
    have := hperm.length_eq
    simp only [List.length_append] at this
    omega
  · intro x hx
    have : x ∈ bs ++ d2 := List.mem_append.mpr (Or.inr hx)
    exact hperm.mem_iff.mp this
  · intro b hb
    have hb' : b ∈ bs ++ List.replicate (5 - bs.length) 0 :=
      (sortDescNat_perm _).mem_iff.mp hb
    rcases List.mem_append.mp hb' with h | h
    · right
      exact hperm.mem_iff.mp (List.mem_append.mpr (Or.inl h))
    · left
      exact List.eq_of_mem_replicate h

/-- Specification of dealing `n` casinos in sequence. -/
theorem dealN_spec :
    ∀ (n : Nat) (deck : List Nat), (∀ x ∈ deck, 10 ≤ x) →
      5 * n ≤ deck.length →
      ∃ cs d2, dealN n deck = some (cs, d2) ∧
        cs.length = n ∧
        d2.length + casinosNz cs = deck.length ∧
        (∀ x ∈ d2, x ∈ deck) ∧
        (∀ c ∈ cs, c.bills.length = 5 ∧
          List.Pairwise (fun x y => y ≤ x) c.bills ∧
          50 ≤ (c.bills.filter (fun b => b ≠ 0)).sum ∧
          (∀ b ∈ c.bills, b = 0 ∨ b ∈ deck) ∧
          c.dice = List.replicate MAX_PLAYERS 0) := by
  intro n
  induction n with
  | zero =>
    intro deck hdeck hlen
    exact ⟨[], deck, rfl, rfl, by simp [casinosNz], fun x hx => hx, by simp⟩
  | succ n ih =>
    intro deck hdeck hlen
    obtain ⟨bills, d2, heq1, hblen, hbsorted, hbsum, hcount, hsub, hbmem⟩ :=
      dealOne_spec deck hdeck (by omega)
    have hd2 : ∀ x ∈ d2, 10 ≤ x := fun x hx => hdeck x (hsub x hx)
    have hd2len : 5 * n ≤ d2.length := by
      have hnz : nzCount bills ≤ bills.length := by
        rw [nzCount]
        exact List.length_filter_le _ _
      omega
    obtain ⟨cs, d3, heq2, hcslen, hcount2, hsub2, hprops⟩ := ih d2 hd2 hd2len
    refine ⟨⟨bills, List.replicate MAX_PLAYERS 0⟩ :: cs, d3, ?_, ?_, ?_, ?_, ?_⟩
    · simp only [dealN, heq1, heq2]
    · simp [hcslen]
    · simp only [casinosNz, List.map_cons, List.sum_cons]
      rw [casinosNz] at hcount2
      omega
    · intro x hx
      exact hsub x (hsub2 x hx)
    · intro c hc
      rcases List.mem_cons.mp hc with rfl | hc'
    
      · exact ⟨hblen, hbsorted, hbsum, hbmem, rfl⟩
      · obtain ⟨h1, h2, h3, h4, h5⟩ := hprops c hc'
        exact ⟨h1, h2, h3, fun b hb => (h4 b hb).imp id (fun hm => hsub b hm), h5⟩

/-- C8: given a deck of real bills (each worth at least 10) with at least
30 bills, `deal_bills` succeeds and returns exactly 6 casinos, each with
exactly 5 bill slots sorted descending (zeros, the empty sentinels, last),
a non-empty-bill sum of at least 50, and an all-zero dice record — in
particular the draw loop never pops more than 5 bills for one casino
(otherwise that casino would have more than 5 slots). -/
theorem deal_bills_spec (deck : List Nat) (hdeck : ∀ x ∈ deck, 10 ≤ x)
    (hlen : 30 ≤ deck.length) :
    ∃ cs d2, deal_bills deck = some (cs, d2) ∧
      cs.length = 6 ∧
      d2.length + casinosNz cs = deck.length ∧
      (∀ c ∈ cs, c.bills.length = 5 ∧
        List.Pairwise (fun x y => y ≤ x) c.bills ∧
        50 ≤ (c.bills.filter (fun b => b ≠ 0)).sum ∧
        c.dice = List.replicate MAX_PLAYERS 0) := by
  obtain ⟨cs, d2, heq, hcslen, hcount, _, hprops⟩ :=
    dealN_spec 6 deck hdeck (by omega)
  exact ⟨cs, d2, heq, hcslen, hcount,
    fun c hc => ⟨(hprops c hc).1, (hprops c hc).2.1, (hprops c hc).2.2.1,
      (hprops c hc).2.2.2.2⟩⟩

/-- Witness for C8 at the unshuffled initial deck. -/
theorem deal_bills_spec_witness :
    (∀ x ∈ initialDeck, 10 ≤ x) ∧ 30 ≤ initialDeck.length ∧
    (∃ cs d2, deal_bills initialDeck = some (cs, d2) ∧
      cs.length = 6 ∧
      d2.length + casinosNz cs = initialDeck.length ∧
      (∀ c ∈ cs, c.bills.length = 5 ∧
        List.Pairwise (fun x y => y ≤ x) c.bills ∧
        50 ≤ (c.bills.filter (fun b => b ≠ 0)).sum ∧
        c.dice = List.replicate MAX_PLAYERS 0)) :=
  ⟨by decide, by decide, deal_bills_spec initialDeck (by decide) (by decide)⟩

end LasVegas

/-! ### Concrete reachable traces (used by claims C3, C4, C5, C6) -/

namespace LasVegas

/-- The 4-player game with the unshuffled initial deck, after `__init__`. -/
def c3s0 : GameState := (initGame 4 initialDeck).getD default

/-- Players 0-3 each place 2 dice in casino 0 and their remaining 6 dice in
casinos 1-4, from legal rolls. -/
def c3s1 : GameState := (play_move c3s0 0 0 [2, 6, 0, 0, 0, 0]).getD default

def c3s2 : GameState := (play_move c3s1 0 1 [0, 6, 0, 0, 0, 0]).getD default

def c3s3 : GameState := (play_move c3s2 1 0 [2, 0, 6, 0, 0, 0]).getD default

def c3s4 : GameState := (play_move c3s3 1 2 [0, 0, 6, 0, 0, 0]).getD default

def c3s5 : GameState := (play_move c3s4 2 0 [2, 0, 0, 6, 0, 0]).getD default

def c3s6 : GameState := (play_move c3s5 2 3 [0, 0, 0, 6, 0, 0]).getD default

def c3s7 : GameState := (play_move c3s6 3 0 [2, 0, 0, 0, 6, 0]).getD default

def c3s8 : GameState := (play_move c3s7 3 4 [0, 0, 0, 0, 6, 0]).getD default

/-- Round 1 resolved: casino 0 has dice `[2,2,2,2,0]`, a four-way tie at 2
with the inactive slot 4 uniquely holding count 0. -/
def c3Final : GameState :=
  (advance_round c3s8 (resolvePhase c3s8).deck).getD default

/-- C3 failing run: in a 4-player game, after a round in which all four
active players tie in casino 0, `advance_round` pays casino 0's top bill
(90) to the INACTIVE player slot 4, which uniquely holds the dice count 0.
The trace uses only operations within their stated preconditions (every
move comes from a legal roll), so the spec's invariant that inactive slots
never accrue cash is violated by the code. -/
theorem inactive_slot_paid_on_trace :
    Reach c3Final 5 false ∧ c3Final.num_players = 4 ∧
    (c3Final.players.getD 4 default).cash = 90 := by
  refine ⟨?_, by decide, by decide⟩
  have h0 : Reach c3s0 0 false :=
    Reach.init 4 initialDeck c3s0 (List.Perm.refl _) rfl
  have h1 : Reach c3s1 0 false :=
    Reach.move c3s0 c3s1 0 0 0 [2, 6, 0, 0, 0, 0] h0 rfl (by decide) rfl
  have h2 : Reach c3s2 0 false :=
    Reach.move c3s1 c3s2 0 0 1 [0, 6, 0, 0, 0, 0] h1 rfl (by decide) rfl
  have h3 : Reach c3s3 0 false :=
    Reach.move c3s2 c3s3 0 1 0 [2, 0, 6, 0, 0, 0] h2 rfl (by decide) rfl
  have h4 : Reach c3s4 0 false :=
    Reach.move c3s3 c3s4 0 1 2 [0, 0, 6, 0, 0, 0] h3 rfl (by decide) rfl
  have h5 : Reach c3s5 0 false :=
    Reach.move c3s4 c3s5 0 2 0 [2, 0, 0, 6, 0, 0] h4 rfl (by decide) rfl
  have h6 : Reach c3s6 0 false :=
    Reach.move c3s5 c3s6 0 2 3 [0, 0, 0, 6, 0, 0] h5 rfl (by decide) rfl
  have h7 : Reach c3s7 0 false :=
    Reach.move c3s6 c3s7 0 3 0 [2, 0, 0, 0, 6, 0] h6 rfl (by decide) rfl
  have h8 : Reach c3s8 0 false :=
    Reach.move c3s7 c3s8 0 3 4 [0, 0, 0, 0, 6, 0] h7 rfl (by decide) rfl
  exact Reach.adv c3s8 c3Final 0 (resolvePhase c3s8).deck h8
    (List.Perm.refl _) rfl

/-- The 2-player game with the unshuffled initial deck, after `__init__`:
every casino's bill list is `[90,0,0,0,0]` except casino 5's `[80,0,0,0,0]`. -/
def g2start : GameState := (initGame 2 initialDeck).getD default

/-- C5 failing run: `get_game_state` rotates each casino's bill slots by
the observer index (`bills[player:] + bills[:player]`), so the bill-slot
portion of the encoding differs between observers of the same state: entry
13 (casino 0's first bill slot) is `90/90` for observer 0 but `0/90` for
observer 1, whose rotation moved the stored slot 0 to entry 17.  Both
observers are active and use the legal fresh roll `[8,0,0,0,0,0]`. -/
theorem encode_bills_rotated_by_observer :
    Reach g2start 0 false ∧
    g2start.casinos.map (fun c => c.bills) =
      [[90, 0, 0, 0, 0], [90, 0, 0, 0, 0], [90, 0, 0, 0, 0],
       [90, 0, 0, 0, 0], [90, 0, 0, 0, 0], [80, 0, 0, 0, 0]] ∧
    (get_game_state g2start 0 [8, 0, 0, 0, 0, 0]).getD 13 0 = (90 : ℚ) / 90 ∧
    (get_game_state g2start 1 [8, 0, 0, 0, 0, 0]).getD 13 0 = (0 : ℚ) / 90 ∧
    (get_game_state g2start 1 [8, 0, 0, 0, 0, 0]).getD 17 0 = (90 : ℚ) / 90 ∧
    (get_game_state g2start 0 [8, 0, 0, 0, 0, 0]).getD 13 0 ≠
      (get_game_state g2start 1 [8, 0, 0, 0, 0, 0]).getD 13 0 := by
  refine ⟨Reach.init 2 initialDeck g2start (List.Perm.refl _) rfl,
    by decide, ?_, ?_, ?_, ?_⟩
  · with_unfolding_all decide
  · with_unfolding_all decide
  · with_unfolding_all decide
  · with_unfolding_all decide

/-- Player 0 places 4 dice in casino 0 and 4 in casino 1; player 1 places
all 8 in casino 2 (all from legal rolls). -/
def c4s1 : GameState := (play_move g2start 0 0 [4, 4, 0, 0, 0, 0]).getD default

def c4s2 : GameState := (play_move c4s1 0 1 [0, 4, 0, 0, 0, 0]).getD default

def c4s3 : GameState := (play_move c4s2 1 2 [0, 0, 8, 0, 0, 0]).getD default

/-- Round 1 resolved: player 0 won the 90 bill of casino 0 and of casino 1,
so `cash = 180 > CASH_NORM`; the game is in round 2. -/
def c4State : GameState :=
  (advance_round c4s3 (resolvePhase c4s3).deck).getD default

/-- C4 counterexample: at the reachable state `c4State`, with the active
observer 0 and the legal fresh roll `[8,0,0,0,0,0]`, the cash component of
`get_game_state` (entry 3) equals `180/100 > 1`, so not every component of
the encoding lies in `[0,1]`. -/
theorem encode_cash_component_exceeds_one_cex :
    Reach c4State 3 false ∧
    0 < c4State.num_players ∧
    (([8, 0, 0, 0, 0, 0] : List Nat).sum : Int) =
      (c4State.players.getD 0 default).dice ∧
    (get_game_state c4State 0 [8, 0, 0, 0, 0, 0]).getD 3 0 = (180 : ℚ) / 100 ∧
    1 < (get_game_state c4State 0 [8, 0, 0, 0, 0, 0]).getD 3 0 := by
  have hval : (get_game_state c4State 0 [8, 0, 0, 0, 0, 0]).getD 3 0 =
      (180 : ℚ) / 100 := by
    with_unfolding_all decide
  refine ⟨?_, by decide, by decide, hval, ?_⟩
  · have h0 : Reach g2start 0 false :=
      Reach.init 2 initialDeck g2start (List.Perm.refl _) rfl
    have h1 : Reach c4s1 0 false :=
      Reach.move g2start c4s1 0 0 0 [4, 4, 0, 0, 0, 0] h0 rfl (by decide) rfl
    have h2 : Reach c4s2 0 false :=
      Reach.move c4s1 c4s2 0 0 1 [0, 4, 0, 0, 0, 0] h1 rfl (by decide) rfl
    have h3 : Reach c4s3 0 false :=
      Reach.move c4s2 c4s3 0 1 2 [0, 0, 8, 0, 0, 0] h2 rfl (by decide) rfl
    exact Reach.adv c4s3 c4State 0 (resolvePhase c4s3).deck h3
      (List.Perm.refl _) rfl
  · rw [hval]
    norm_num

/-- Full 2-player game: in each of the 4 rounds, player 0 places all 8
dice in casino 0 and player 1 places all 8 in casino 1 (legal rolls of
eight 1s resp. eight 2s); each round is then resolved. -/
def c6r1a : GameState := (play_move g2start 0 0 [8, 0, 0, 0, 0, 0]).getD default

def c6r1b : GameState := (play_move c6r1a 1 1 [0, 8, 0, 0, 0, 0]).getD default

def c6r2 : GameState :=
  (advance_round c6r1b (resolvePhase c6r1b).deck).getD default

def c6r2a : GameState := (play_move c6r2 0 0 [8, 0, 0, 0, 0, 0]).getD default

def c6r2b : GameState := (play_move c6r2a 1 1 [0, 8, 0, 0, 0, 0]).getD default

def c6r3 : GameState :=
  (advance_round c6r2b (resolvePhase c6r2b).deck).getD default

def c6r3a : GameState := (play_move c6r3 0 0 [8, 0, 0, 0, 0, 0]).getD default

def c6r3b : GameState := (play_move c6r3a 1 1 [0, 8, 0, 0, 0, 0]).getD default

def c6r4 : GameState :=
  (advance_round c6r3b (resolvePhase c6r3b).deck).getD default

def c6r4a : GameState := (play_move c6r4 0 0 [8, 0, 0, 0, 0, 0]).getD default

def c6r4b : GameState := (play_move c6r4a 1 1 [0, 8, 0, 0, 0, 0]).getD default

/-- The terminal state: round 4 resolved by the final `advance_round`. -/
def c6Final : GameState :=
  (advance_round c6r4b (resolvePhase c6r4b).deck).getD default

/-- C6 counterexample: at the reachable terminal state `c6Final` (the
final round resolved, 8 bills paid out over the game), the conservation
sum is `46 + 4 + 8 = 58 ≠ 54`: the final `advance_round` appends the
leftover non-empty bills to the deck but also leaves them in the casinos,
so they are double-counted. -/
theorem deck_conservation_fails_after_final_resolve :
    Reach c6Final 8 true ∧
    c6Final.deck.length + casinosNz c6Final.casinos + 8 = 58 ∧
    c6Final.deck.length + casinosNz c6Final.casinos + 8 ≠ 54 := by
  refine ⟨?_, by decide, by decide⟩
  have h0 : Reach g2start 0 false :=
    Reach.init 2 initialDeck g2start (List.Perm.refl _) rfl
  have h1 : Reach c6r1a 0 false :=
    Reach.move g2start c6r1a 0 0 0 [8, 0, 0, 0, 0, 0] h0 rfl (by decide) rfl
  have h2 : Reach c6r1b 0 false :=
    Reach.move c6r1a c6r1b 0 1 1 [0, 8, 0, 0, 0, 0] h1 rfl (by decide) rfl
  have h3 : Reach c6r2 2 false :=
    Reach.adv c6r1b c6r2 0 (resolvePhase c6r1b).deck h2 (List.Perm.refl _) rfl
  have h4 : Reach c6r2a 2 false :=
    Reach.move c6r2 c6r2a 2 0 0 [8, 0, 0, 0, 0, 0] h3 rfl (by decide) rfl
  have h5 : Reach c6r2b 2 false :=
    Reach.move c6r2a c6r2b 2 1 1 [0, 8, 0, 0, 0, 0] h4 rfl (by decide) rfl
  have h6 : Reach c6r3 4 false :=
    Reach.adv c6r2b c6r3 2 (resolvePhase c6r2b).deck h5 (List.Perm.refl _) rfl
  have h7 : Reach c6r3a 4 false :=
    Reach.move c6r3 c6r3a 4 0 0 [8, 0, 0, 0, 0, 0] h6 rfl (by decide) rfl
  have h8 : Reach c6r3b 4 false :=
    Reach.move c6r3a c6r3b 4 1 1 [0, 8, 0, 0, 0, 0] h7 rfl (by decide) rfl
  have h9 : Reach c6r4 6 false :=
    Reach.adv c6r3b c6r4 4 (resolvePhase c6r3b).deck h8 (List.Perm.refl _) rfl
  have h10 : Reach c6r4a 6 false :=
    Reach.move c6r4 c6r4a 6 0 0 [8, 0, 0, 0, 0, 0] h9 rfl (by decide) rfl
  have h11 : Reach c6r4b 6 false :=
    Reach.move c6r4a c6r4b 6 1 1 [0, 8, 0, 0, 0, 0] h10 rfl (by decide) rfl
  exact Reach.adv c6r4b c6Final 6 (resolvePhase c6r4b).deck h11
    (List.Perm.refl _) rfl

end LasVegas

/-! ### Supporting lemmas for the reachability invariants -/

namespace LasVegas

theorem getD_mem {α : Type} {l : List α} {i : Nat} (d : α) (h : i < l.length) :
    l.getD i d ∈ l := by
  induction l generalizing i with
  | nil => simp at h
  | cons a m ih =>
    cases i with
    | zero => simp
    | succ n =>
      simp only [List.getD_cons_succ]
      exact List.mem_cons.mpr (Or.inr (ih (by simpa using h)))

theorem updAt_mem {α : Type} {l : List α} {i : Nat} {f : α → α} {x : α}
    (h : x ∈ updAt i f l) : x ∈ l ∨ ∃ c ∈ l, x = f c := by
  induction l generalizing i with
  | nil => simp [updAt] at h
  | cons a m ih =>
    cases i with
    | zero =>
      rcases List.mem_cons.mp h with rfl | h'
      · exact Or.inr ⟨a, by simp⟩
      · exact Or.inl (by simp [h'])
    | succ n =>
      rcases List.mem_cons.mp h with rfl | h'
      · exact Or.inl (by simp)
      · rcases ih h' with h2 | ⟨c, hc, he⟩
        · exact Or.inl (by simp [h2])
        · exact Or.inr ⟨c, by simp [hc], he⟩

theorem sum_map_updAt {α : Type} [Inhabited α] (l : List α) (a : Nat)
    (f : α → α) (h : α → Nat) (ha : a < l.length) :
    ((updAt a f l).map h).sum + h (l.getD a default) =
      (l.map h).sum + h (f (l.getD a default)) := by
  induction l generalizing a with
  | nil => simp at ha
  | cons c m ih =>
    cases a with
    | zero => simp [updAt]; omega
    | succ n =>
      have := ih n (by simpa using ha)
      simp only [updAt, List.map_cons, List.sum_cons, List.getD_cons_succ]
      omega

theorem nz_suffix_le (pre suf : List Nat) :
    nzCount suf ≤ nzCount (pre ++ suf) := by
  rw [nzCount, nzCount, List.filter_append]
  simp

theorem drawLoopF_perm :
    ∀ (fuel : Nat) (acc deck bs d2 : List Nat),
      drawLoopF fuel acc deck = some (bs, d2) →
      (bs ++ d2).Perm (acc ++ deck) := by
  intro fuel
  induction fuel with
  | zero => intro acc deck bs d2 h; simp [drawLoopF] at h
  | succ fuel ih =>
    intro acc deck bs d2 h
    by_cases hge : 50 ≤ acc.sum
    · rw [drawLoopF, if_pos hge] at h
      simp only [Option.some.injEq, Prod.mk.injEq] at h
      rw [h.1, h.2]
    · rw [drawLoopF, if_neg hge] at h
      cases hlast : deck.getLast? with
      | none =>
        rw [hlast] at h
        simp at h
      | some b =>
        rw [hlast] at h
        have hsplit : deck.dropLast ++ [b] = deck := getLast?_split hlast
        have hperm := ih (acc ++ [b]) deck.dropLast bs d2 h
        refine hperm.trans ?_
        rw [List.append_assoc]
        have h3 := List.Perm.append_left acc
          (List.perm_append_comm :
            ([b] ++ deck.dropLast).Perm (deck.dropLast ++ [b]))
        rw [hsplit] at h3
        exact h3

theorem nzCount_pad_nz (bs : List Nat) (k : Nat) (h : ∀ x ∈ bs, x ≠ 0) :
    nzCount (sortDescNat (bs ++ List.replicate k 0)) = bs.length := by
  have hperm := (sortDescNat_perm (bs ++ List.replicate k 0)).filter
    (fun b => decide (b ≠ 0))
  rw [nzCount, hperm.length_eq, List.filter_append]
  have h1 : (bs.filter (fun b => decide (b ≠ 0))) = bs :=
    List.filter_eq_self.mpr (fun x hx => by simpa using h x hx)
  have h2 : ((List.replicate k 0).filter (fun b => decide (b ≠ 0))) = [] := by
    apply List.filter_eq_nil_iff.mpr
    intro x hx
    simp [List.eq_of_mem_replicate hx]
  rw [h1, h2, List.append_nil]

/-- Bill-count accounting for one dealt casino, assuming only that the
deck holds no zero (sentinel) values. -/
theorem dealOne_count (deck bills d2 : List Nat)
    (heq : dealOne deck = some (bills, d2)) (hnz : ∀ x ∈ deck, x ≠ 0) :
    d2.length + nzCount bills = deck.length ∧
    (∀ x ∈ d2, x ∈ deck) ∧ (∀ b ∈ bills, b = 0 ∨ b ∈ deck) := by
  rw [dealOne] at heq
  cases hdl : drawLoop [] deck with
  | none => rw [hdl] at heq; simp at heq
  | some bsd =>
    obtain ⟨bs, d⟩ := bsd
    rw [hdl] at heq
    simp only [Option.some.injEq, Prod.mk.injEq] at heq
    obtain ⟨hbills, hd2⟩ := heq
    have hperm : (bs ++ d).Perm deck := by
      have := drawLoopF_perm (deck.length + 1) [] deck bs d hdl
      simpa using this
    have hbsmem : ∀ x ∈ bs, x ∈ deck :=
      fun x hx => hperm.mem_iff.mp (List.mem_append.mpr (Or.inl hx))
    have hdmem : ∀ x ∈ d, x ∈ deck :=
      fun x hx => hperm.mem_iff.mp (List.mem_append.mpr (Or.inr hx))
    refine ⟨?_, ?_, ?_⟩
    · rw [← hbills, ← hd2, nzCount_pad_nz bs _ (fun x hx => hnz x (hbsmem x hx))]
      have := hperm.length_eq
      simp only [List.length_append] at this
      omega
    · rw [← hd2]
      exact hdmem
    · rw [← hbills]
      intro b hb
      have hb' : b ∈ bs ++ List.replicate (5 - bs.length) 0 :=
        (sortDescNat_perm _).mem_iff.mp hb
      rcases List.mem_append.mp hb' with h | h
      · exact Or.inr (hbsmem b h)
      · exact Or.inl (List.eq_of_mem_replicate h)

/-- Bill-count accounting for a successful `dealN`. -/
theorem dealN_count :
    ∀ (n : Nat) (deck : List Nat) (cs : List Casino) (d2 : List Nat),
      dealN n deck = some (cs, d2) → (∀ x ∈ deck, x ≠ 0) →
      d2.length + casinosNz cs = deck.length ∧
      (∀ x ∈ d2, x ∈ deck) ∧
      (∀ c ∈ cs, (∀ b ∈ c.bills, b = 0 ∨ b ∈ deck) ∧
        c.dice = List.replicate MAX_PLAYERS 0) := by
  intro n
  induction n with
  | zero =>
    intro deck cs d2 heq hnz
    rw [dealN] at heq
    simp only [Option.some.injEq, Prod.mk.injEq] at heq
    obtain ⟨h1, h2⟩ := heq
    rw [← h1, ← h2]
    exact ⟨by simp [casinosNz], fun x hx => hx, by simp⟩
  | succ n ih =>
    intro deck cs d2 heq hnz
    rw [dealN] at heq
    cases h1 : dealOne deck with
    | none => rw [h1] at heq; simp at heq
    | some bd =>
      obtain ⟨bills, d⟩ := bd
      simp only [h1] at heq
      cases h2 : dealN n d with
      | none =>
        simp only [h2] at heq
        exact absurd heq (by simp)
      | some cd =>
        obtain ⟨cs', d'⟩ := cd
        simp only [h2, Option.some.injEq, Prod.mk.injEq] at heq
        obtain ⟨hcs, hd2⟩ := heq
        obtain ⟨hcount1, hsub1, hbmem1⟩ := dealOne_count deck bills d h1 hnz
        have hnzd : ∀ x ∈ d, x ≠ 0 := fun x hx => hnz x (hsub1 x hx)
        obtain ⟨hcount2, hsub2, hprops2⟩ := ih d cs' d' h2 hnzd
        refine ⟨?_, ?_, ?_⟩
        · rw [← hcs, ← hd2]
          simp only [casinosNz, List.map_cons, List.sum_cons]
          rw [casinosNz] at hcount2
          omega
        · rw [← hd2]
          exact fun x hx => hsub1 x (hsub2 x hx)
        · rw [← hcs]
          intro c hc
          rcases List.mem_cons.mp hc with rfl | hc'
          · exact ⟨fun b hb => hbmem1 b hb, rfl⟩
          · obtain ⟨hm, hd⟩ := hprops2 c hc'
            exact ⟨fun b hb => (hm b hb).imp id (fun hx => hsub1 b hx), hd⟩

/-- Every casino produced by the resolve loop is an input casino with the
same dice record and a suffix of its bills. -/
theorem resolveList_mem (cs : List Casino) (ps : List Player) (deck : List Nat) :
    ∀ c' ∈ (resolveList cs ps deck).1,
      ∃ c ∈ cs, c'.dice = c.dice ∧ ∃ pre, c.bills = pre ++ c'.bills := by
  induction cs generalizing ps deck with
  | nil => simp [resolveList]
  | cons c cs ih =>
    intro c' hc'
    simp only [resolveList] at hc'
    rcases List.mem_cons.mp hc' with rfl | hc''
    · refine ⟨c, by simp, rfl, ?_⟩
      obtain ⟨pp, hpp⟩ := payLoop_bills_suffix c.dice
        (sortByCnt (enumFrom 0 c.dice)).reverse c.bills ps
      exact ⟨pp, hpp⟩
    · obtain ⟨c0, hc0, hdice, pre, hpre⟩ := ih _ _ c' hc''
      exact ⟨c0, by simp [hc0], hdice, pre, hpre⟩

/-- Every bill in the post-resolve deck is an old deck bill or a non-zero
bill of some input casino. -/
theorem resolveList_deck_mem (cs : List Casino) (ps : List Player)
    (deck : List Nat) :
    ∀ x ∈ (resolveList cs ps deck).2.2,
      x ∈ deck ∨ ∃ c ∈ cs, x ∈ c.bills ∧ x ≠ 0 := by
  induction cs generalizing ps deck with
  | nil => simp [resolveList]
  | cons c cs ih =>
    intro x hx
    simp only [resolveList] at hx
    rcases ih _ _ x hx with h | ⟨c0, hc0, hb, hnz⟩
    · rcases List.mem_append.mp h with h' | h'
      · exact Or.inl h'
      · have h2 := List.mem_filter.mp h'
        obtain ⟨pp, hpp⟩ := payLoop_bills_suffix c.dice
          (sortByCnt (enumFrom 0 c.dice)).reverse c.bills ps
        refine Or.inr ⟨c, by simp, ?_, by simpa using h2.2⟩
        rw [hpp]
        exact List.mem_append.mpr (Or.inr h2.1)
    · exact Or.inr ⟨c0, by simp [hc0], hb, hnz⟩

/-- Deck-length accounting for the resolve loop: the recycled non-zero
leftover bills are appended to the deck and also stay in the casinos. -/
theorem resolveList_deck_length (cs : List Casino) (ps : List Player)
    (deck : List Nat) :
    (resolveList cs ps deck).2.2.length =
      deck.length + casinosNz (resolveList cs ps deck).1 := by
  induction cs generalizing ps deck with
  | nil => simp [resolveList, casinosNz]
  | cons c cs ih =>
    simp only [resolveList]
    rw [ih]
    simp only [casinosNz, List.map_cons, List.sum_cons, List.length_append,
      nzCount]
    omega

/-- The resolve loop can only consume bills, never create them. -/
theorem resolveList_nz_le (cs : List Casino) (ps : List Player)
    (deck : List Nat) :
    casinosNz (resolveList cs ps deck).1 ≤ casinosNz cs := by
  induction cs generalizing ps deck with
  | nil => simp [resolveList]
  | cons c cs ih =>
    simp only [resolveList, casinosNz, List.map_cons, List.sum_cons]
    have h1 : nzCount (resolveCasino c ps).2 ≤ nzCount c.bills := by
      obtain ⟨pp, hpp⟩ := payLoop_bills_suffix c.dice
        (sortByCnt (enumFrom 0 c.dice)).reverse c.bills ps
      rw [hpp]
      exact nz_suffix_le pp _
    have h2 := ih (resolveCasino c ps).1
      (deck ++ (resolveCasino c ps).2.filter (fun b => b ≠ 0))
    rw [casinosNz, casinosNz] at h2
    omega

theorem resetActive_length (n : Nat) (ps : List Player) :
    (resetActive n ps).length = ps.length := by
  rw [resetActive, List.length_map, enumFrom_length]

end LasVegas

/-! ### Well-formedness of reachable states -/

namespace LasVegas

theorem getD_updAt_self {α : Type} (p : Nat) (f : α → α) (l : List α) (d : α)
    (h : p < l.length) : (updAt p f l).getD p d = f (l.getD p d) := by
  rw [List.getD_eq_getElem?_getD, List.getD_eq_getElem?_getD,
    getElem?_updAt_self, List.getElem?_eq_getElem h]
  rfl

theorem getD_updAt_ne {α : Type} (i p : Nat) (f : α → α) (l : List α) (d : α)
    (h : i ≠ p) : (updAt p f l).getD i d = l.getD i d := by
  rw [List.getD_eq_getElem?_getD, List.getD_eq_getElem?_getD,
    getElem?_updAt_ne i p f l h]

theorem mkPlayers_getD (n i : Nat) :
    (mkPlayers n).getD i default =
      if i < n ∧ i < MAX_PLAYERS then (⟨0, (NUM_DICE : Int)⟩ : Player)
      else (⟨0, 0⟩ : Player) := by
  rw [mkPlayers, List.getD_eq_getElem?_getD, List.getElem?_map]
  by_cases hi : i < MAX_PLAYERS
  · rw [List.getElem?_range hi]
    by_cases hn : i < n
    · simp [hn, hi]
    · simp [hn, hi]
  · rw [List.getElem?_eq_none (by simpa using hi)]
    rw [if_neg (fun hcon => hi hcon.2)]
    rfl

theorem mkPlayers_length (n : Nat) : (mkPlayers n).length = MAX_PLAYERS := by
  rw [mkPlayers, List.length_map, List.length_range]

theorem dealN_len :
    ∀ (n : Nat) (deck : List Nat) (cs : List Casino) (d2 : List Nat),
      dealN n deck = some (cs, d2) → cs.length = n := by
  intro n
  induction n with
  | zero =>
    intro deck cs d2 heq
    rw [dealN] at heq
    simp only [Option.some.injEq, Prod.mk.injEq] at heq
    rw [← heq.1]
    rfl
  | succ n ih =>
    intro deck cs d2 heq
    rw [dealN] at heq
    cases h1 : dealOne deck with
    | none => rw [h1] at heq; simp at heq
    | some bd =>
      obtain ⟨bills, d⟩ := bd
      simp only [h1] at heq
      cases h2 : dealN n d with
      | none =>
        simp only [h2] at heq
        exact absurd heq (by simp)
      | some cd =>
        obtain ⟨cs', d'⟩ := cd
        simp only [h2, Option.some.injEq, Prod.mk.injEq] at heq
        rw [← heq.1]
        simp [ih d cs' d' h2]

theorem replicate_getD_zero (k i : Nat) :
    (List.replicate k (0 : Nat)).getD i 0 = 0 := by
  rw [List.getD_eq_getElem?_getD]
  cases h : (List.replicate k (0 : Nat))[i]? with
  | none => rfl
  | some v =>
    have := List.getElem?_mem h
    simp [List.eq_of_mem_replicate this]

theorem placedSum_resolvePhase (g : GameState) (i : Nat) :
    placedSum (resolvePhase g) i = placedSum g i := by
  rw [placedSum, placedSum]
  have h := resolvePhase_casinos_dice g
  have h2 := congrArg (List.map (fun l : List Nat => l.getD i 0)) h
  rw [List.map_map, List.map_map] at h2
  rw [show ((fun l : List Nat => l.getD i 0) ∘ fun c : Casino => c.dice) =
    (fun c : Casino => c.dice.getD i 0) from rfl] at h2
  rw [h2]

/-- Well-formedness invariant of reachable game states. -/
structure WF (g : GameState) : Prop where
  np_lo : 2 ≤ g.num_players
  np_hi : g.num_players ≤ MAX_PLAYERS
  players_len : g.players.length = MAX_PLAYERS
  casinos_len : g.casinos.length = 6
  round_lo : 1 ≤ g.round
  round_hi : g.round ≤ NUM_ROUNDS
  fp_lt : g.first_player < g.num_players
  deck_bounds : ∀ b ∈ g.deck, 10 ≤ b ∧ b ≤ 90
  bills_bounds : ∀ c ∈ g.casinos, ∀ b ∈ c.bills, b = 0 ∨ (10 ≤ b ∧ b ≤ 90)
  cdice_len : ∀ c ∈ g.casinos, c.dice.length = MAX_PLAYERS
  dice_nonneg : ∀ i : Nat, 0 ≤ (g.players.getD i default).dice
  conserv : ∀ i : Nat, i < MAX_PLAYERS →
    placedSum g i + (g.players.getD i default).dice.toNat =
      if i < g.num_players then NUM_DICE else 0

theorem initialDeck_bounds : ∀ b ∈ initialDeck, 10 ≤ b ∧ b ≤ 90 := by decide

theorem initialDeck_length : initialDeck.length = 54 := by decide

end LasVegas

namespace LasVegas

theorem set_pc_players (g : GameState) (ps' : List Player) (cs' : List Casino) :
    ({ g with players := ps', casinos := cs' } : GameState).players = ps' := rfl

theorem set_pc_casinos (g : GameState) (ps' : List Player) (cs' : List Casino) :
    ({ g with players := ps', casinos := cs' } : GameState).casinos = cs' := rfl

theorem set_pc_np (g : GameState) (ps' : List Player) (cs' : List Casino) :
    ({ g with players := ps', casinos := cs' } : GameState).num_players =
      g.num_players := rfl

theorem placedSum_set_pc (g : GameState) (ps' : List Player) (cs' : List Casino)
    (i : Nat) :
    placedSum ({ g with players := ps', casinos := cs' } : GameState) i =
      (cs'.map (fun c => c.dice.getD i 0)).sum := rfl

theorem placedSum_def (g : GameState) (i : Nat) :
    placedSum g i = (g.casinos.map (fun c => c.dice.getD i 0)).sum := rfl

theorem wf_init (n : Nat) (sd : List Nat) (g : GameState)
    (hperm : sd.Perm initialDeck) (hinit : initGame n sd = some g) : WF g := by
  rw [initGame] at hinit
  by_cases hcond : 2 ≤ n ∧ n ≤ MAX_PLAYERS
  · rw [if_pos hcond] at hinit
    cases hdeal : deal_bills sd with
    | none => rw [hdeal] at hinit; simp at hinit
    | some cd =>
      obtain ⟨cs, d⟩ := cd
      rw [hdeal] at hinit
      simp only [Option.some.injEq] at hinit
      subst hinit
      have hsdb : ∀ b ∈ sd, 10 ≤ b ∧ b ≤ 90 :=
        fun b hb => initialDeck_bounds b (hperm.subset hb)
      have hsdnz : ∀ b ∈ sd, b ≠ 0 := by
        intro b hb
        have := hsdb b hb
        omega
      obtain ⟨hcount, hsub, hprops⟩ := dealN_count 6 sd cs d hdeal hsdnz
      refine ⟨hcond.1, hcond.2, mkPlayers_length n, dealN_len 6 sd cs d hdeal,
        le_refl 1, by show (1 : Nat) ≤ NUM_ROUNDS; decide,
        by show (0 : Nat) < n; omega, ?_, ?_, ?_, ?_, ?_⟩
      · exact fun b hb => hsdb b (hsub b hb)
      · exact fun c hc b hb => ((hprops c hc).1 b hb).imp id (hsdb b)
      · intro c hc
        rw [(hprops c hc).2]
        simp [MAX_PLAYERS]
      · intro i
        show 0 ≤ ((mkPlayers n).getD i default).dice
        rw [mkPlayers_getD]
        split_ifs <;> decide
      · intro i hi
        have hzero : (cs.map (fun c => c.dice.getD i 0)).sum = 0 := by
          apply List.sum_eq_zero
          intro x hx
          obtain ⟨c, hc, rfl⟩ := List.mem_map.mp hx
          rw [(hprops c hc).2, replicate_getD_zero]
        show placedSum _ i + ((mkPlayers n).getD i default).dice.toNat =
          if i < n then NUM_DICE else 0
        rw [placedSum_def]
        show (cs.map (fun c => c.dice.getD i 0)).sum + _ = _
        rw [hzero, mkPlayers_getD]
        by_cases hn : i < n
        · rw [if_pos ⟨hn, hi⟩, if_pos hn]
          rfl
        · rw [if_neg (fun hcon => hn hcon.1), if_neg hn]
          rfl
  · rw [if_neg hcond] at hinit
    simp at hinit

theorem wf_move (g g' : GameState) (p a : Nat) (rc : List Nat)
    (hwf : WF g) (hsum : (rc.sum : Int) = (g.players.getD p default).dice)
    (hmv : play_move g p a rc = some g') : WF g' := by
  rw [play_move] at hmv
  by_cases hp : p < g.num_players
  swap
  · rw [if_neg hp] at hmv; simp at hmv
  by_cases ha : a < 6
  swap
  · rw [if_pos hp, if_neg ha] at hmv; simp at hmv
  by_cases hrc : 0 < rc.getD a 0
  swap
  · rw [if_pos hp, if_pos ha, if_neg hrc] at hmv; simp at hmv
  rw [if_pos hp, if_pos ha, if_pos hrc] at hmv
  simp only [Option.some.injEq] at hmv
  subst hmv
  have hplen : p < g.players.length := by
    rw [hwf.players_len]
    show p < MAX_PLAYERS
    have := hwf.np_hi
    rw [MAX_PLAYERS] at this ⊢
    omega
  have halen : a < g.casinos.length := by
    rw [hwf.casinos_len]
    omega
  have hca : g.casinos.getD a default ∈ g.casinos := getD_mem default halen
  have hcalen : (g.casinos.getD a default).dice.length = MAX_PLAYERS :=
    hwf.cdice_len _ hca
  have hxle : rc.getD a 0 ≤ rc.sum := getD_le_sum rc a
  refine ⟨hwf.np_lo, hwf.np_hi, ?_, ?_, hwf.round_lo, hwf.round_hi,
    hwf.fp_lt, hwf.deck_bounds, ?_, ?_, ?_, ?_⟩
  · rw [set_pc_players, updAt_length]
    exact hwf.players_len
  · rw [set_pc_casinos, updAt_length]
    exact hwf.casinos_len
  · rw [set_pc_casinos]
    intro c' hc'
    rcases updAt_mem hc' with h | ⟨c, hc, rfl⟩
    · exact hwf.bills_bounds c' h
    · exact hwf.bills_bounds c hc
  · rw [set_pc_casinos]
    intro c' hc'
    rcases updAt_mem hc' with h | ⟨c, hc, rfl⟩
    · exact hwf.cdice_len c' h
    · show (updAt p _ c.dice).length = MAX_PLAYERS
      rw [updAt_length]
      exact hwf.cdice_len c hc
  · intro i
    rw [set_pc_players]
    by_cases hip : i = p
    · subst hip
      rw [getD_updAt_self i _ g.players default hplen]
      have hbeta : ((fun q : Player =>
          { q with dice := q.dice - (rc.getD a 0 : Int) })
          (g.players.getD i default)).dice =
          (g.players.getD i default).dice - (rc.getD a 0 : Int) := rfl
      rw [hbeta]
      have h0 := hwf.dice_nonneg i
      omega
    · rw [getD_updAt_ne i p _ g.players default hip]
      exact hwf.dice_nonneg i
  · intro i hi
    rw [placedSum_set_pc, set_pc_players, set_pc_np]
    have hp5 : p < (g.casinos.getD a default).dice.length := by
      rw [hcalen, ← hwf.players_len]
      exact hplen
    have hE2 : (List.map (fun c => c.dice.getD i 0)
        (updAt a
          (fun c => { c with dice := updAt p (fun m => m + rc.getD a 0) c.dice })
          g.casinos)).sum + (g.casinos.getD a default).dice.getD i 0 =
        (List.map (fun c => c.dice.getD i 0) g.casinos).sum +
        (updAt p (fun m => m + rc.getD a 0)
          (g.casinos.getD a default).dice).getD i 0 :=
      sum_map_updAt g.casinos a
        (fun c => { c with dice := updAt p (fun m => m + rc.getD a 0) c.dice })
        (fun c => c.dice.getD i 0) halen
    have hcons := hwf.conserv i hi
    rw [placedSum_def] at hcons
    by_cases hip : i = p
    · subst hip
      have hE : (List.map (fun c => c.dice.getD i 0)
          (updAt a
            (fun c => { c with dice := updAt i (fun m => m + rc.getD a 0) c.dice })
            g.casinos)).sum + (g.casinos.getD a default).dice.getD i 0 =
          (List.map (fun c => c.dice.getD i 0) g.casinos).sum +
          ((g.casinos.getD a default).dice.getD i 0 + rc.getD a 0) := by
        rw [getD_updAt_self i _ _ 0 hp5] at hE2
        exact hE2
      rw [getD_updAt_self i _ g.players default hplen]
      have htn : ((fun q : Player =>
          { q with dice := q.dice - (rc.getD a 0 : Int) })
          (g.players.getD i default)).dice.toNat =
          (g.players.getD i default).dice.toNat - rc.getD a 0 := by
        show ((g.players.getD i default).dice - (rc.getD a 0 : Int)).toNat = _
        omega
      rw [htn]
      rw [if_pos hp] at hcons ⊢
      have hnn := hwf.dice_nonneg i
      omega
    · rw [getD_updAt_ne i p _ _ 0 hip] at hE2
      rw [getD_updAt_ne i p _ g.players default hip]
      by_cases hin : i < g.num_players
      · rw [if_pos hin] at hcons ⊢
        omega
      · rw [if_neg hin] at hcons ⊢
        omega

end LasVegas

namespace LasVegas

theorem wf_resolvePhase (g : GameState) (hwf : WF g) : WF (resolvePhase g) := by
  have hdice := dice_getD_of_map_eq (resolvePhase_players_dice g)
  refine ⟨hwf.np_lo, hwf.np_hi, ?_, ?_, hwf.round_lo, hwf.round_hi,
    hwf.fp_lt, ?_, ?_, ?_, ?_, ?_⟩
  · show (resolvePhase g).players.length = MAX_PLAYERS
    have h := congrArg List.length (resolvePhase_players_dice g)
    simpa [hwf.players_len] using h
  · show (resolvePhase g).casinos.length = 6
    have h := congrArg List.length (resolvePhase_casinos_dice g)
    simpa [hwf.casinos_len] using h
  · intro b hb
    rcases resolveList_deck_mem g.casinos g.players g.deck b hb with h | ⟨c, hc, hbc, hnz⟩
    · exact hwf.deck_bounds b h
    · rcases hwf.bills_bounds c hc b hbc with h0 | h0
      · exact absurd h0 hnz
      · exact h0
  · intro c' hc'
    obtain ⟨c, hc, _, pre, hpre⟩ := resolveList_mem g.casinos g.players g.deck c' hc'
    intro b hb
    exact hwf.bills_bounds c hc b (by rw [hpre]; exact List.mem_append.mpr (Or.inr hb))
  · intro c' hc'
    obtain ⟨c, hc, hd, _, _⟩ := resolveList_mem g.casinos g.players g.deck c' hc'
    rw [hd]
    exact hwf.cdice_len c hc
  · intro i
    rw [hdice i]
    exact hwf.dice_nonneg i
  · intro i hi
    rw [placedSum_resolvePhase, hdice i]
    exact hwf.conserv i hi

theorem wf_adv (g g' : GameState) (sd : List Nat) (hwf : WF g)
    (hperm : sd.Perm (resolvePhase g).deck)
    (hadv : advance_round g sd = some g') : WF g' := by
  have hwfR := wf_resolvePhase g hwf
  rw [advance_round] at hadv
  by_cases hend : is_end_round g
  swap
  · rw [if_neg hend] at hadv; simp at hadv
  rw [if_pos hend] at hadv
  by_cases hlt : (resolvePhase g).round < NUM_ROUNDS
  swap
  · rw [if_neg hlt] at hadv
    simp only [Option.some.injEq] at hadv
    rw [← hadv]
    exact hwfR
  rw [if_pos hlt] at hadv
  cases hdeal : deal_bills sd with
  | none => rw [hdeal] at hadv; simp at hadv
  | some cd =>
    obtain ⟨cs, d⟩ := cd
    rw [hdeal] at hadv
    simp only [Option.some.injEq] at hadv
    subst hadv
    have hsdb : ∀ b ∈ sd, 10 ≤ b ∧ b ≤ 90 :=
      fun b hb => hwfR.deck_bounds b (hperm.subset hb)
    have hsdnz : ∀ b ∈ sd, b ≠ 0 := by
      intro b hb
      have := hsdb b hb
      omega
    obtain ⟨hcount, hsub, hprops⟩ := dealN_count 6 sd cs d hdeal hsdnz
    have hnp : (resolvePhase g).num_players = g.num_players := rfl
    refine ⟨hwf.np_lo, hwf.np_hi, ?_, dealN_len 6 sd cs d hdeal, ?_, ?_, ?_,
      ?_, ?_, ?_, ?_, ?_⟩
    · show (resetActive (resolvePhase g).num_players
        (resolvePhase g).players).length = MAX_PLAYERS
      rw [resetActive_length]
      exact hwfR.players_len
    · show 1 ≤ (resolvePhase g).round + 1
      omega
    · show (resolvePhase g).round + 1 ≤ NUM_ROUNDS
      omega
    · show ((resolvePhase g).first_player + 1) % (resolvePhase g).num_players <
        (resolvePhase g).num_players
      have := hwf.np_lo
      rw [hnp]
      exact Nat.mod_lt _ (by omega)
    · exact fun b hb => hsdb b (hsub b hb)
    · exact fun c hc b hb => ((hprops c hc).1 b hb).imp id (hsdb b)
    · intro c hc
      rw [(hprops c hc).2]
      simp [MAX_PLAYERS]
    · intro i
      show 0 ≤ ((resetActive (resolvePhase g).num_players
        (resolvePhase g).players).getD i default).dice
      rw [List.getD_eq_getElem?_getD, resetActive_getElem?]
      cases hq : (resolvePhase g).players[i]? with
      | none =>
        show (0 : Int) ≤ (default : Player).dice
        decide
      | some q =>
        simp only [Option.map_some']
        have h0 := hwfR.dice_nonneg i
        rw [List.getD_eq_getElem?_getD, hq] at h0
        simp only [Option.getD_some] at h0
        by_cases hin : i < (resolvePhase g).num_players
        · rw [if_pos hin]
          show (0 : Int) ≤ (NUM_DICE : Int)
          decide
        · rw [if_neg hin]
          exact h0
    · intro i hi
      have hzero : (cs.map (fun c => c.dice.getD i 0)).sum = 0 := by
        apply List.sum_eq_zero
        intro x hx
        obtain ⟨c, hc, rfl⟩ := List.mem_map.mp hx
        rw [(hprops c hc).2, replicate_getD_zero]
      show placedSum _ i + ((resetActive (resolvePhase g).num_players
          (resolvePhase g).players).getD i default).dice.toNat =
        if i < (resolvePhase g).num_players then NUM_DICE else 0
      rw [placedSum_def]
      show (cs.map (fun c => c.dice.getD i 0)).sum + _ = _
      rw [hzero]
      have hcons := hwfR.conserv i hi
      have hilen : i < (resolvePhase g).players.length := by
        rw [hwfR.players_len]
        exact hi
      rw [List.getD_eq_getElem?_getD, resetActive_getElem?,
        List.getElem?_eq_getElem hilen]
      simp only [Option.map_some']
      simp only [Option.getD_some]
      by_cases hin : i < (resolvePhase g).num_players
      · rw [if_pos hin, if_pos hin]
        show 0 + (NUM_DICE : Int).toNat = NUM_DICE
        decide
      · rw [if_neg hin, if_neg hin]
        rw [List.getD_eq_getElem?_getD, List.getElem?_eq_getElem hilen] at hcons
        simp only [Option.getD_some] at hcons
        rw [if_neg hin] at hcons
        omega

end LasVegas

namespace LasVegas

/-- Every reachable state is well-formed. -/
theorem reach_wf {g : GameState} {k : Nat} {f : Bool} (h : Reach g k f) :
    WF g := by
  induction h with
  | init n sd g hperm hinit => exact wf_init n sd g hperm hinit
  | move g g' k p a rc hg hlen hsum hmv ih => exact wf_move g g' p a rc ih hsum hmv
  | adv g g' k sd hg hperm hadv ih => exact wf_adv g g' sd ih hperm hadv

end LasVegas

/-! ### Claim C6 (amended): bill-count conservation -/

namespace LasVegas

theorem casinosNz_updAt (a : Nat) (F : Casino → Casino) (cs : List Casino)
    (h : ∀ c, (F c).bills = c.bills) :
    casinosNz (updAt a F cs) = casinosNz cs := by
  rw [casinosNz, casinosNz,
    map_updAt a F (fun c => nzCount c.bills) cs
      (fun c => by show nzCount (F c).bills = nzCount c.bills; rw [h c])]

theorem reach_conservation_aux {g : GameState} {k : Nat} {f : Bool}
    (h : Reach g k f) :
    f = false →
      (∀ b ∈ g.deck, b ≠ 0) ∧ g.deck.length + casinosNz g.casinos + k = 54 := by
  induction h with
  | init n sd g hperm hinit =>
    intro _
    rw [initGame] at hinit
    by_cases hcond : 2 ≤ n ∧ n ≤ MAX_PLAYERS
    · rw [if_pos hcond] at hinit
      cases hdeal : deal_bills sd with
      | none => rw [hdeal] at hinit; simp at hinit
      | some cd =>
        obtain ⟨cs, d⟩ := cd
        rw [hdeal] at hinit
        simp only [Option.some.injEq] at hinit
        subst hinit
        have hsdnz : ∀ b ∈ sd, b ≠ 0 := by
          intro b hb
          have := initialDeck_bounds b (hperm.subset hb)
          omega
        obtain ⟨hcount, hsub, _⟩ := dealN_count 6 sd cs d hdeal hsdnz
        have hlen : sd.length = 54 := by
          rw [hperm.length_eq, initialDeck_length]
        exact ⟨fun b hb => hsdnz b (hsub b hb), by
          show d.length + casinosNz cs + 0 = 54
          omega⟩
    · rw [if_neg hcond] at hinit
      simp at hinit
  | move g g' k p a rc hg hlen hsum hmv ih =>
    intro _
    obtain ⟨ihz, ihc⟩ := ih rfl
    rw [play_move] at hmv
    by_cases hp : p < g.num_players
    swap
    · rw [if_neg hp] at hmv; simp at hmv
    by_cases ha : a < 6
    swap
    · rw [if_pos hp, if_neg ha] at hmv; simp at hmv
    by_cases hrc : 0 < rc.getD a 0
    swap
    · rw [if_pos hp, if_pos ha, if_neg hrc] at hmv; simp at hmv
    rw [if_pos hp, if_pos ha, if_pos hrc] at hmv
    simp only [Option.some.injEq] at hmv
    subst hmv
    refine ⟨ihz, ?_⟩
    show g.deck.length + casinosNz (updAt a
      (fun c => { c with dice := updAt p (fun m => m + rc.getD a 0) c.dice })
      g.casinos) + k = 54
    rw [casinosNz_updAt a
      (fun c => { c with dice := updAt p (fun m => m + rc.getD a 0) c.dice })
      g.casinos (fun c => rfl)]
    exact ihc
  | adv g g' k sd hg hperm hadv ih =>
    intro hflag
    obtain ⟨ihz, ihc⟩ := ih rfl
    have hwf := reach_wf hg
    have hround : g.round < NUM_ROUNDS := by
      have h1 := hwf.round_hi
      have h2 : g.round ≠ NUM_ROUNDS := by simpa using hflag
      omega
    rw [advance_round] at hadv
    by_cases hend : is_end_round g
    swap
    · rw [if_neg hend] at hadv; simp at hadv
    rw [if_pos hend] at hadv
    have hlt : (resolvePhase g).round < NUM_ROUNDS := by
      rw [resolvePhase_round]
      exact hround
    rw [if_pos hlt] at hadv
    cases hdeal : deal_bills sd with
    | none => rw [hdeal] at hadv; simp at hadv
    | some cd =>
      obtain ⟨cs, d⟩ := cd
      rw [hdeal] at hadv
      simp only [Option.some.injEq] at hadv
      subst hadv
      have hdeckR : (resolvePhase g).deck.length =
          g.deck.length + casinosNz (resolvePhase g).casinos :=
        resolveList_deck_length g.casinos g.players g.deck
      have hle : casinosNz (resolvePhase g).casinos ≤ casinosNz g.casinos :=
        resolveList_nz_le g.casinos g.players g.deck
      have hpaid : paidCount g =
          casinosNz g.casinos - casinosNz (resolvePhase g).casinos := rfl
      have hRz : ∀ b ∈ (resolvePhase g).deck, b ≠ 0 := by
        intro b hb
        rcases resolveList_deck_mem g.casinos g.players g.deck b hb with
          h | ⟨c, hc, hbc, hnz⟩
        · exact ihz b h
        · exact hnz
      have hsdnz : ∀ b ∈ sd, b ≠ 0 := fun b hb => hRz b (hperm.subset hb)
      obtain ⟨hcount, hsub, _⟩ := dealN_count 6 sd cs d hdeal hsdnz
      have hsdlen : sd.length = (resolvePhase g).deck.length := hperm.length_eq
      refine ⟨?_, ?_⟩
      · intro b hb
        exact hsdnz b (hsub b hb)
      · show d.length + casinosNz cs + (k + paidCount g) = 54
        rw [hpaid]
        omega

/-- C6 (amended): at every reachable state in which the final round's
`advance_round` has not yet run, the number of bills in the deck plus the
number of non-empty bills across the casinos plus the number of bills
historically paid to players is exactly 54, and the deck never contains an
empty-sentinel (zero) entry — sentinels are never recycled as bills. -/
theorem deck_conservation_before_final_resolve (g : GameState) (k : Nat)
    (hreach : Reach g k false) :
    (∀ b ∈ g.deck, b ≠ 0) ∧
    g.deck.length + casinosNz g.casinos + k = 54 :=
  reach_conservation_aux hreach rfl

/-- Witness for the amended C6 at the freshly initialized 2-player game:
48 deck bills + 6 casino bills + 0 payouts = 54. -/
theorem deck_conservation_before_final_resolve_witness :
    (∀ b ∈ g2start.deck, b ≠ 0) ∧
    g2start.deck.length + casinosNz g2start.casinos + 0 = 54 :=
  deck_conservation_before_final_resolve g2start 0
    (Reach.init 2 initialDeck g2start (List.Perm.refl _) rfl)

end LasVegas

/-! ### Claim C4 (amended): bounds on the state-encoding vector -/

namespace LasVegas

theorem mem_le_sum {l : List Nat} {x : Nat} (h : x ∈ l) : x ≤ l.sum := by
  induction l with
  | nil => simp at h
  | cons a m ih =>
    rcases List.mem_cons.mp h with rfl | h'
    · simp
    · have := ih h'
      simp only [List.sum_cons]
      omega

theorem shiftTo_subset {α : Type} {l : List α} {p : Nat} {x : α}
    (h : x ∈ shiftTo l p) : x ∈ l := by
  rcases List.mem_append.mp h with h' | h'
  · exact List.drop_subset p l h'
  · exact List.take_subset p l h'

theorem orderOf_bounds (g : GameState) (p : Nat)
    (hfp : g.first_player < g.num_players) (hp : p < g.num_players) :
    0 ≤ orderOf g p ∧ orderOf g p < (g.num_players : Int) := by
  rw [orderOf]
  split_ifs with h
  · omega
  · omega

theorem maxBillValue_eq : maxBillValue = 90 := by decide

theorem wf_casino_dice_le {g : GameState} (hwf : WF g) :
    ∀ c ∈ g.casinos, ∀ d ∈ c.dice, d ≤ NUM_DICE := by
  intro c hc d hd
  obtain ⟨j, hj, hget⟩ := List.mem_iff_getElem.mp hd
  have hj5 : j < MAX_PLAYERS := by
    rw [← hwf.cdice_len c hc]
    exact hj
  have hdg : c.dice.getD j 0 = d := by
    rw [List.getD_eq_getElem?_getD, List.getElem?_eq_getElem hj]
    simp [hget]
  have hmem : c.dice.getD j 0 ∈ g.casinos.map (fun c => c.dice.getD j 0) :=
    List.mem_map.mpr ⟨c, hc, rfl⟩
  have h1 : c.dice.getD j 0 ≤ placedSum g j := mem_le_sum hmem
  have h2 := hwf.conserv j hj5
  by_cases hin : j < g.num_players
  · rw [if_pos hin] at h2
    omega
  · rw [if_neg hin] at h2
    omega

theorem wf_player_dice_toNat_le {g : GameState} (hwf : WF g) (p : Nat)
    (hp : p < g.num_players) :
    (g.players.getD p default).dice.toNat ≤ NUM_DICE := by
  have hp5 : p < MAX_PLAYERS := by
    have := hwf.np_hi
    omega
  have h2 := hwf.conserv p hp5
  rw [if_pos hp] at h2
  omega

theorem cast_div_nonneg (a b : Nat) : (0 : ℚ) ≤ (a : ℚ) / (b : ℚ) :=
  div_nonneg (Nat.cast_nonneg a) (Nat.cast_nonneg b)

theorem cast_div_le_one (a b : Nat) (hb : 0 < b) (hab : a ≤ b) :
    (a : ℚ) / (b : ℚ) ≤ 1 := by
  rw [div_le_one (by exact_mod_cast hb)]
  exact_mod_cast hab

theorem int_cast_div_nonneg (x : Int) (n : Nat) (hx : 0 ≤ x) :
    (0 : ℚ) ≤ (x : ℚ) / (n : ℚ) :=
  div_nonneg (by exact_mod_cast hx) (Nat.cast_nonneg n)

theorem int_cast_div_le_one (x : Int) (n : Nat) (hn : 0 < n)
    (hxn : x ≤ (n : Int)) : (x : ℚ) / (n : ℚ) ≤ 1 := by
  rw [div_le_one (by exact_mod_cast hn)]
  exact_mod_cast hxn

/-- C4 (amended): at every reachable state, for every active observing
player and roll counts from a legal roll of that player's remaining dice,
the `get_game_state` vector splits into its four blocks, every component
is non-negative, and every component OTHER than the cash block lies in
`[0, 1]`.  (The cash components `cash / CASH_NORM` are only non-negative;
they exceed 1 whenever a player holds more than 100 cash, which happens
in reachable games.) -/
theorem encode_components_bounds (g : GameState) (k : Nat) (f : Bool)
    (hreach : Reach g k f) (p : Nat) (hp : p < g.num_players)
    (rc : List Nat) (hrclen : rc.length = 6)
    (hrcsum : (rc.sum : Int) = (g.players.getD p default).dice) :
    get_game_state g p rc =
      headerVec g p ++ cashVec g p ++ casinoVec g p ++ rollVec rc ∧
    (∀ q ∈ headerVec g p, 0 ≤ q ∧ q ≤ 1) ∧
    (∀ q ∈ cashVec g p, 0 ≤ q) ∧
    (∀ q ∈ casinoVec g p, 0 ≤ q ∧ q ≤ 1) ∧
    (∀ q ∈ rollVec rc, 0 ≤ q ∧ q ≤ 1) := by
  have hwf := reach_wf hreach
  refine ⟨rfl, ?_, ?_, ?_, ?_⟩
  · intro q hq
    rw [headerVec] at hq
    rcases List.mem_cons.mp hq with rfl | hq
    · exact ⟨cast_div_nonneg _ _,
        cast_div_le_one g.num_players MAX_PLAYERS (by decide) hwf.np_hi⟩
    rcases List.mem_cons.mp hq with rfl | hq
    · exact ⟨cast_div_nonneg _ _,
        cast_div_le_one g.round NUM_ROUNDS (by decide) hwf.round_hi⟩
    rcases List.mem_cons.mp hq with rfl | hq
    · obtain ⟨ho1, ho2⟩ := orderOf_bounds g p hwf.fp_lt hp
      have hnp : 0 < g.num_players := by
        have := hwf.np_lo
        omega
      exact ⟨int_cast_div_nonneg _ _ ho1,
        int_cast_div_le_one _ _ hnp (le_of_lt ho2)⟩
    simp at hq
  · intro q hq
    rw [cashVec] at hq
    obtain ⟨c, hc, rfl⟩ := List.mem_map.mp hq
    exact cast_div_nonneg c CASH_NORM
  · intro q hq
    rw [casinoVec] at hq
    obtain ⟨blk, hblk, hqblk⟩ := List.mem_flatten.mp hq
    obtain ⟨c, hc, rfl⟩ := List.mem_map.mp hblk
    rcases List.mem_append.mp hqblk with hqd | hqb
    · obtain ⟨d, hd, rfl⟩ := List.mem_map.mp hqd
      have hd2 : d ∈ c.dice := shiftTo_subset hd
      have hdle : d ≤ NUM_DICE := wf_casino_dice_le hwf c hc d hd2
      exact ⟨cast_div_nonneg d NUM_DICE,
        cast_div_le_one d NUM_DICE (by decide) hdle⟩
    · obtain ⟨b, hb, rfl⟩ := List.mem_map.mp hqb
      have hb2 : b ∈ c.bills := shiftTo_subset hb
      have hble : b ≤ maxBillValue := by
        rw [maxBillValue_eq]
        rcases hwf.bills_bounds c hc b hb2 with rfl | hbb
        · omega
        · omega
      exact ⟨cast_div_nonneg b maxBillValue,
        cast_div_le_one b maxBillValue (by decide) hble⟩
  · intro q hq
    rw [rollVec] at hq
    obtain ⟨r, hr, rfl⟩ := List.mem_map.mp hq
    have h1 : r ≤ rc.sum := mem_le_sum hr
    have h2 : rc.sum = (g.players.getD p default).dice.toNat := by
      have := hwf.dice_nonneg p
      omega
    have h3 : r ≤ NUM_DICE := by
      have := wf_player_dice_toNat_le hwf p hp
      omega
    exact ⟨cast_div_nonneg r NUM_DICE,
      cast_div_le_one r NUM_DICE (by decide) h3⟩

/-- Witness for the amended C4 at the freshly initialized 2-player game,
observer 0, legal roll `[8,0,0,0,0,0]`. -/
theorem encode_components_bounds_witness :
    get_game_state g2start 0 [8, 0, 0, 0, 0, 0] =
      headerVec g2start 0 ++ cashVec g2start 0 ++ casinoVec g2start 0 ++
        rollVec [8, 0, 0, 0, 0, 0] ∧
    (∀ q ∈ headerVec g2start 0, 0 ≤ q ∧ q ≤ 1) ∧
    (∀ q ∈ cashVec g2start 0, 0 ≤ q) ∧
    (∀ q ∈ casinoVec g2start 0, 0 ≤ q ∧ q ≤ 1) ∧
    (∀ q ∈ rollVec [8, 0, 0, 0, 0, 0], 0 ≤ q ∧ q ≤ 1) :=
  encode_components_bounds g2start 0 false
    (Reach.init 2 initialDeck g2start (List.Perm.refl _) rfl)
    0 (by decide) [8, 0, 0, 0, 0, 0] rfl (by decide)

end LasVegas
